import Mathlib

/-!
Verification development for the ticker-resolution and price-batching core of the
shumi-discord-bot repository.

The JavaScript sources are embedded shallowly:
- `ResolveJs` models `src/resolve.js` (canonical table, wrapped/pegged filters,
  candidate scoring, `resolveCoinId`).
- `ResolverAdvanced` models `resolver-advanced.js` (pair parsing, flag detection,
  candidate picking with the stablecoin guard, `resolveQuery`).
- `SmartResolverV2` models the learning resolver class of the same name
  (normalization, memory cache, persisted mappings, bans, failure backoff).
- `CgBatcher` models `src/cg-batcher.js` (order-preserving multi-price lookup and
  the batching/coalescing state machine).

String scanning from the sources (substring tests, the word-boundary regex
tests, trimming, lowercasing) is implemented on `List Char` by structural
recursion so that every definition evaluates inside the kernel.  JavaScript
`Map`s are modelled as insertion-ordered association lists, matching Map
iteration order.  Timestamps are naturals counting milliseconds.  Floating
point quote payloads are carried opaquely (no arithmetic is performed on them
by the embedded code paths).
-/

set_option maxHeartbeats 1000000

namespace StrKit

/-- Lowercase every character, modelling JS `toLowerCase` on the ASCII data
the resolver handles. -/
def lowerL (l : List Char) : List Char := l.map Char.toLower

def isWs (c : Char) : Bool := c = ' ' || c = '\t' || c = '\n' || c = '\r'

/-- JS `trim`: strip whitespace from both ends. -/
def trimL (l : List Char) : List Char :=
  ((l.dropWhile isWs).reverse.dropWhile isWs).reverse

/-- Does `s` start with the pattern `pat`? -/
def startsWithL (s pat : List Char) : Bool :=
  match s, pat with
  | _, [] => true
  | [], _ :: _ => false
  | c :: cs, p :: ps => c = p && startsWithL cs ps

/-- Does `s` end with the pattern `pat`? -/
def endsWithL (s pat : List Char) : Bool := startsWithL s.reverse pat.reverse

/-- Does `s` contain `pat` as a contiguous substring (JS `String.includes`)? -/
def containsL (pat : List Char) : List Char → Bool
  | [] => startsWithL [] pat
  | c :: cs => startsWithL (c :: cs) pat || containsL pat cs

def strLower (s : String) : String := String.mk (lowerL s.data)

def strTrim (s : String) : String := String.mk (trimL s.data)

/-- JS `s.includes(pat)`. -/
def strHas (s pat : String) : Bool := containsL pat.data s.data

/-- JS `s.startsWith(pat)`. -/
def strStarts (s pat : String) : Bool := startsWithL s.data pat.data

/-- Regex word characters `[A-Za-z0-9_]`. -/
def isWordChar (c : Char) : Bool :=
  ('a' ≤ c && c ≤ 'z') || ('A' ≤ c && c ≤ 'Z') || ('0' ≤ c && c ≤ '9') || c = '_'

def wordO : Option Char → Bool
  | none => false
  | some c => isWordChar c

/-- A regex `\b` holds between two positions exactly when one side is a word
character and the other is not (string ends count as non-word). -/
def boundaryB (a b : Option Char) : Bool := wordO a != wordO b

/-- One alternative matches at the head of `rest` with `\b` required on both
sides; `prev` is the character just before `rest`. -/
def altHereBB (prev : Option Char) (rest alt : List Char) : Bool :=
  startsWithL rest alt && boundaryB prev alt.head? &&
    boundaryB alt.getLast? (rest.drop alt.length).head?

def scanBB (alts : List (List Char)) : Option Char → List Char → Bool
  | prev, [] => alts.any (altHereBB prev [])
  | prev, c :: cs => alts.any (altHereBB prev (c :: cs)) || scanBB alts (some c) cs

/-- Regex test `\b(alt1|alt2|...)\b` against `s` (alternatives taken literally). -/
def testBB (alts : List String) (s : String) : Bool :=
  scanBB (alts.map (·.data)) none s.data

/-- One alternative matches at the head of `rest` with `\b` required only on
the right side. -/
def altHereRB (rest alt : List Char) : Bool :=
  startsWithL rest alt && boundaryB alt.getLast? (rest.drop alt.length).head?

def scanRB (alts : List (List Char)) : List Char → Bool
  | [] => alts.any (altHereRB [])
  | c :: cs => alts.any (altHereRB (c :: cs)) || scanRB alts cs

/-- Regex test `(alt1\b|alt2\b|...)` against `s`: each alternative needs a word
boundary only after it. -/
def testRB (alts : List String) (s : String) : Bool :=
  scanRB (alts.map (·.data)) s.data

/-- Regex test `stable\s*coin` at the head of `s`. -/
def stableCoinHere (s : List Char) : Bool :=
  startsWithL s "stable".data && startsWithL ((s.drop 6).dropWhile isWs) "coin".data

/-- Regex test `stable\s*coin` anywhere in `s`. -/
def hasStableCoin : List Char → Bool
  | [] => stableCoinHere []
  | c :: cs => stableCoinHere (c :: cs) || hasStableCoin cs

/-- Insert `x` before the first element `y` with `lt x y`; keeping `x` after
equal elements makes the fold below a stable sort, matching JS `Array.sort`
(stable in all modern engines). -/
def insertSorted (lt : α → α → Bool) (x : α) : List α → List α
  | [] => [x]
  | y :: ys => if lt x y then x :: y :: ys else y :: insertSorted lt x ys

/-- Stable sort by the strict relation `lt` ("must come strictly before"). -/
def stableSortBy (lt : α → α → Bool) (l : List α) : List α :=
  l.foldl (fun acc x => insertSorted lt x acc) []

end StrKit

open StrKit

namespace ResolveJs

/-- A raw search-endpoint candidate (`data.coins` entry); `market_cap_rank` may
be absent. -/
structure RawCand where
  id : String
  name : String
  symbol : String
  rank : Option Int
deriving DecidableEq

/-- A candidate after `resolveCoinId`'s mapping step defaulted the rank to 9999. -/
structure Cand where
  id : String
  name : String
  symbol : String
  rank : Int
deriving DecidableEq

/-- Canonical map for top tickers from `src/resolve.js` (fast path). -/
def CANONICAL : List (String × String) :=
  [("btc", "bitcoin"), ("xbt", "bitcoin"), ("eth", "ethereum"), ("sol", "solana"),
   ("link", "chainlink"), ("ada", "cardano"), ("avax", "avalanche-2"),
   ("bnb", "binancecoin"), ("doge", "dogecoin"), ("trx", "tron"),
   ("matic", "polygon-ecosystem-token"), ("pol", "polygon-ecosystem-token"),
   ("ltc", "litecoin"), ("uni", "uniswap"), ("arb", "arbitrum"), ("op", "optimism"),
   ("ldo", "lido-dao"), ("dot", "polkadot"), ("atom", "cosmos"), ("xrp", "ripple"),
   ("algo", "algorand"), ("near", "near"), ("ftm", "fantom"), ("xlm", "stellar"),
   ("vet", "vechain"), ("icp", "internet-computer"), ("fil", "filecoin"),
   ("apt", "aptos"), ("sui", "sui"), ("sei", "sei-network"),
   ("inj", "injective-protocol"), ("tia", "celestia"), ("w", "wormhole"),
   ("syn", "synapse-2"), ("multi", "multichain"), ("any", "anyswap"),
   ("sd", "stader"), ("bio", "bio-protocol"), ("spx", "spx6900"),
   ("pendle", "pendle"), ("cvx", "convex-finance"), ("omni", "omni-network"),
   ("mavia", "heroes-of-mavia")]

def canonicalLookup (t : String) : Option String :=
  (CANONICAL.find? (fun p => p.1 == t)).map (·.2)

/-- Hard blocklist of ids from `src/resolve.js`; the env-var extension
`SHUMI_CG_BLOCKLIST` is modelled as unset (empty). -/
def BLOCKED_IDS : List String :=
  ["weth", "wrapped-ether", "wrapped-bitcoin", "wbtc", "binance-wrapped-btc",
   "binance-peg-ethereum", "binance-peg-bitcoin", "wrapped-steth", "wrapped-solana",
   "wsol", "staked-ether", "steth", "coinbase-wrapped-staked-eth",
   "solana-wormhole", "ethereum-wormhole", "bitcoin-wormhole",
   "wrapped-avax", "wrapped-bnb", "wrapped-matic", "wmatic", "matic-wormhole",
   "wrapped-fantom", "bridged-usdc", "bridged-usdt", "bridged-dai",
   "multichain-bridged-usdc", "multichain-bridged-btc", "multichain-bridged-eth",
   "synapse-bridged-usdc", "synapse-bridged-usdt",
   "anyswap-eth", "anyswap-btc", "anyswap-bnb",
   "polygon-bridged-usdc", "arbitrum-bridged-usdc", "optimism-bridged-eth"]

def legitimateProtocolNames : List String :=
  ["wormhole", "synapse-2", "synapse protocol", "multichain", "anyswap"]

/-- Heuristic text rule excluding wrapped/bridged variants (`looksWrappedOrPegged`). -/
def looksWrappedOrPegged (name : String) : Bool :=
  let s := strLower name
  if legitimateProtocolNames.contains s then false
  else
    strHas s "wrapped" || strHas s "wbtc" || strHas s "weth" || strHas s "peg" ||
    strHas s "pegged" || strHas s "bridged" || strHas s "-wormhole" ||
    strHas s "wormhole-" || strHas s "binance-peg" || strHas s "multichain-bridged" ||
    strHas s "anyswap-" || strHas s "-anyswap" || strHas s "synapse-bridged" ||
    strHas s "staked" || strHas s "wsteth" || strHas s "wrapped-staked"

/-- Score candidates: prefer native, big mcap, exact symbol/name. -/
def scoreCandidate (q : String) (c : Cand) : Int :=
  let ql := strLower q
  (if strLower c.symbol == ql then 50 else 0) +
  (if strLower c.name == ql then 40 else 0) +
  max 0 (100 - c.rank) +
  (if looksWrappedOrPegged c.name || looksWrappedOrPegged c.id then -100 else 0) +
  (if !strHas c.id "-" && !strHas c.id "wrapped" then 10 else 0)

/-- `resolveCoinId`, with the upstream search endpoint abstracted as an oracle
(`none` models a transport failure, which the source catches and turns into
`null`).  The second component records whether the search endpoint was
contacted at all.  The rate-limit sleep/retry machinery changes no result and
is not modelled. -/
def resolveCoinIdT (search : String → Option (List RawCand)) (query : String) :
    Option String × Bool :=
  let q := strLower (strTrim query)
  match canonicalLookup q with
  | some id => (some id, false)
  | none =>
    if q == "weth" || q == "wbtc" || q == "steth" then (some q, false)
    else
      match search q with
      | none => (none, true)
      | some data =>
        let coins :=
          ((data.map (fun c =>
              ({ id := c.id, name := c.name, symbol := c.symbol,
                 rank := c.rank.getD 9999 } : Cand)))
            |>.filter (fun c => !BLOCKED_IDS.contains c.id))
          |>.filter (fun c =>
            if strStarts q "w" && (q == "weth" || q == "wbtc" || q == "wrapped") then
              true
            else
              !looksWrappedOrPegged c.name && !looksWrappedOrPegged c.id)
        if coins.isEmpty then (none, true)
        else
          let sorted :=
            stableSortBy (fun a b => decide (scoreCandidate q b < scoreCandidate q a)) coins
          ((sorted.head?).map (·.id), true)

end ResolveJs

example : ResolveJs.canonicalLookup "w" = some "wormhole" := by decide

example : ResolveJs.resolveCoinIdT (fun _ => some []) "BTC " = (some "bitcoin", false) := by
  decide

namespace ResolverAdvanced

/-- A search candidate as used by `resolver-advanced.js` (`CoinCandidate`):
the rank stays absent when the endpoint omits it. -/
structure Candidate where
  id : String
  symbol : String
  name : String
  rank : Option Int
  categories : List String
deriving DecidableEq

structure ResolveFlags where
  include_wrapped : Bool
  include_staked : Bool
  include_bridged : Bool
  include_stablecoins : Bool
  force_exact : Bool
deriving DecidableEq

/-- Canonical ticker table of `resolver-advanced.js` (includes the
single-letter block). -/
def CANONICAL : List (String × String) :=
  [("btc", "bitcoin"), ("xbt", "bitcoin"), ("eth", "ethereum"), ("sol", "solana"),
   ("link", "chainlink"), ("ada", "cardano"), ("avax", "avalanche-2"),
   ("bnb", "binancecoin"), ("doge", "dogecoin"), ("trx", "tron"),
   ("pol", "polygon-ecosystem-token"), ("matic", "polygon-ecosystem-token"),
   ("ltc", "litecoin"), ("uni", "uniswap"), ("arb", "arbitrum"), ("op", "optimism"),
   ("ldo", "lido-dao"), ("dot", "polkadot"), ("atom", "cosmos"), ("xrp", "ripple"),
   ("algo", "algorand"), ("near", "near"), ("ftm", "fantom"), ("xlm", "stellar"),
   ("vet", "vechain"), ("icp", "internet-computer"), ("fil", "filecoin"),
   ("apt", "aptos"), ("sui", "sui"), ("sei", "sei-network"),
   ("inj", "injective-protocol"), ("tia", "celestia"), ("syn", "synapse-2"),
   ("multi", "multichain"), ("any", "anyswap"), ("pengu", "pudgy-penguins"),
   ("w", "wormhole"), ("x", "x"), ("z", "zcash"), ("t", "threshold-network-token"),
   ("n", "numeraire"), ("s", "synthetix-network-token"), ("r", "revain"),
   ("q", "quant-network"), ("p", "protocol"), ("o", "origin-protocol"),
   ("m", "mirror-protocol"), ("l", "chainlink"), ("k", "kyber-network-crystal"),
   ("j", "jupiter"), ("i", "internet-computer"), ("h", "helium"), ("g", "the-graph"),
   ("f", "fetch-ai"), ("e", "enjincoin"), ("d", "dogecoin"),
   ("c", "celsius-degree-token"), ("b", "bancor"), ("a", "aave"),
   ("u", "uniswap"), ("v", "vechain"), ("y", "yearn-finance")]

def resolveCanonical (s : String) : Option String :=
  (CANONICAL.find? (fun p => p.1 == s)).map (·.2)

/-- The fixed quote-currency set, in source order (the order is the regex
alternation order). -/
def QUOTES : List String :=
  ["usdt", "usdc", "busd", "fdusd", "tusd", "dai", "pyusd", "gusd", "usde", "usdp",
   "usdd", "usdj", "gho", "crvusd", "lusd", "eurt", "eurc", "xsgd"]

def STABLES_CORE : List String :=
  ["tether", "usdt", "usd-coin", "usdc", "dai", "tusd", "usdp", "paxos-standard",
   "gusd", "frax", "lusd", "fdusd", "pyusd", "usdd", "usdj", "ust", "terrausd",
   "ustc", "gho", "crvusd", "susd", "eurt", "eurc", "eure", "xsgd", "usde",
   "ageur", "cusd"]

def BLOCKED_IDS : List String :=
  ["weth", "wrapped-ether", "wrapped-bitcoin", "wbtc", "binance-wrapped-btc",
   "binance-peg-ethereum", "binance-peg-bitcoin", "wrapped-steth", "staked-ether",
   "steth", "coinbase-wrapped-staked-eth", "wrapped-avax", "wrapped-bnb",
   "wrapped-matic", "wmatic", "wrapped-fantom", "wrapped-solana", "wsol",
   "ethereum-wormhole", "bitcoin-wormhole", "solana-wormhole",
   "polygon-bridged-usdc", "arbitrum-bridged-usdc", "optimism-bridged-eth",
   "bridged-usdc", "bridged-usdt", "bridged-dai", "multichain-bridged-usdc",
   "multichain-bridged-btc", "multichain-bridged-eth", "synapse-bridged-usdc",
   "synapse-bridged-usdt", "anyswap-eth", "anyswap-btc", "anyswap-bnb"]

def PROTECTED_PROTOCOLS : List String :=
  ["wormhole", "synapse-2", "synapse protocol", "multichain", "anyswap"]

/-- Alternatives of the `BANNED_SUBSTRINGS` regex, each wrapped in the regex
between two `\b` word boundaries. -/
def BANNED_SUBSTRINGS_ALTS : List String :=
  ["wrapped", "wsteth", "steth", "weth", "wbtc", "binance-peg", "pegged", "bridged",
   "wormhole-", " -wormhole", "multichain-bridged", "anyswap-", " -anyswap",
   "synapse-bridged", "restaked", "re-staked", "rsteth", "oseth", "cbeth", "reth",
   "frxeth", "sfrxeth", "ankreth", "stsol", "wstsol"]

/-- `parsePair` helpers: the regex is
`^([a-z0-9._-]{2,})(?:[/:-]?)(usdt|usdc|...)` with the `i` flag; callers pass
already-lowercased input, so the model matches lowercase literals.  Note the
regex has no `$` anchor after the quote group. -/
def pairSeps : List Char := ['/', ':', '-']

def baseChar (c : Char) : Bool :=
  ('a' ≤ c && c ≤ 'z') || ('0' ≤ c && c ≤ '9') || c = '.' || c = '_' || c = '-'

/-- First quote alternative (in source order) that is a prefix of `rest`. -/
def quoteAt (rest : List Char) : Option String :=
  QUOTES.find? (fun q => startsWithL rest q.data)

/-- The optional separator `(?:[/:-]?)` is greedy: with a separator present the
engine first tries the quote after it, then backtracks to the empty separator. -/
def quoteAfterSep (rest : List Char) : Option String :=
  match rest with
  | c :: rs =>
    if pairSeps.contains c then (quoteAt rs).orElse (fun _ => quoteAt rest)
    else quoteAt rest
  | [] => none

/-- Try base lengths from `len` down to 2, mirroring the greedy `{2,}`
quantifier with backtracking. -/
def parsePairAux (cs : List Char) : Nat → Option (String × String)
  | 0 => none
  | 1 => none
  | n + 2 =>
    let base := cs.take (n + 2)
    let rest := cs.drop (n + 2)
    (if base.length == n + 2 && base.all baseChar then
       (quoteAfterSep rest).map (fun q => (String.mk base, q))
     else none).orElse (fun _ => parsePairAux cs (n + 1))

def parsePair (s : String) : Option (String × String) :=
  parsePairAux s.data s.data.length

/-- `detectFlags`: derives the resolve flags from the raw query text. -/
def detectFlags (q : String) : ResolveFlags :=
  let s := strLower q
  let bridgedB := testRB ["bridged", "bridge"] s
  { include_wrapped :=
      strHas s "wbtc" || strHas s "weth" || strHas s "wrapped" ||
      strHas s "wormhole-" || strHas s " -wormhole" || bridgedB,
    include_staked :=
      strHas s "staked" || strHas s "restaked" || strHas s "oseth" ||
      strHas s "reth" || strHas s "cbeth" || strHas s "ankreth" ||
      strHas s "stsol" || strHas s "wstsol" || strHas s "lst" || strHas s "lrt",
    include_bridged := bridgedB,
    include_stablecoins :=
      hasStableCoin s.data ||
      testRB ["usdc", "usdt", "dai", "gho", "crvusd", "lusd"] s,
    force_exact := testBB ["exact"] s || testBB ["force"] s }

def isStableCore (c : Candidate) : Bool :=
  STABLES_CORE.contains (strLower c.id) || STABLES_CORE.contains (strLower c.symbol) ||
    STABLES_CORE.contains (strLower c.name)

def isCoreL1L2 (hay : String) : Bool :=
  testBB ["bitcoin", "ethereum", "solana", "avalanche", "binance", "arbitrum",
          "optimism", "polkadot", "cosmos", "celestia", "aptos", "sui", "near",
          "fantom", "tron", "stellar", "vechain", "kaspa", "internet-computer"] hay

/-- Category test `/LST|LRT|bridged|wrapped/i`. -/
def catTest (cat : String) : Bool :=
  let s := strLower cat
  strHas s "lst" || strHas s "lrt" || strHas s "bridged" || strHas s "wrapped"

/-- Symbol test `/^(eth|sol).*(e|we|st|wst)$/`: starts with eth/sol and, past
those three characters, ends in one of the listed suffixes (ending in "e"
subsumes "we"; ending in "st" subsumes "wst"). -/
def symbolDerivTest (symLower : List Char) : Bool :=
  (startsWithL symLower "eth".data || startsWithL symLower "sol".data) &&
    (let r := symLower.drop 3
     endsWithL r "e".data || endsWithL r "st".data)

/-- The score of a surviving candidate, in hundredths of the JS score so that
the `* 0.01` rank bonus stays exact integer arithmetic. -/
def scoreOf (c : Candidate) : Int :=
  let hay := strLower (c.id ++ " " ++ c.symbol ++ " " ++ c.name)
  (if testBB BANNED_SUBSTRINGS_ALTS hay then -400 else 0) +
  (if c.categories.any catTest then -300 else 0) +
  (if testBB ["usd", "eur", "gbp", "jpy", "try", "mxn"] hay then -200 else 0) +
  (if symbolDerivTest (lowerL c.symbol.data) then -200 else 0) +
  (if PROTECTED_PROTOCOLS.any (fun p => strHas hay p) then 300 else 0) +
  (if isCoreL1L2 hay then 200 else 0) +
  (match c.rank with
   | some r => max 0 (200 - r)
   | none => 0)

structure Scored where
  c : Candidate
  score : Int
deriving DecidableEq

/-- Sort comparator: descending score, then `nameTiebreak` (shorter symbol,
then id order; `localeCompare` modelled as lexicographic order on the ASCII
ids it is applied to). -/
def ltScored (a b : Scored) : Bool :=
  decide (b.score < a.score) ||
    (a.score == b.score &&
      (decide (a.c.symbol.length < b.c.symbol.length) ||
        (a.c.symbol.length == b.c.symbol.length && decide (a.c.id < b.c.id))))

/-- `pickBest`: filter, score, sort, and apply the near-tie stablecoin
preference.  Candidates recognized as core stablecoins are skipped entirely
when `include_stablecoins` is false. -/
def pickBest (cands : List Candidate) (flags : ResolveFlags) : Option Candidate :=
  let scored := cands.filterMap (fun c =>
    if BLOCKED_IDS.contains c.id then none
    else if !flags.include_stablecoins && isStableCore c then none
    else some ({ c := c, score := scoreOf c } : Scored))
  match stableSortBy ltScored scored with
  | [] => none
  | top :: rest =>
    match rest with
    | [] => some top.c
    | second :: _ =>
      if (top.score - second.score).natAbs ≤ 100 then
        if isStableCore top.c && !isStableCore second.c then some second.c
        else some top.c
      else some top.c

inductive ResolveResult where
  | pair (baseId : String) (quote : String)
  | coin (id : String)
  | noMatch (reason : String)
deriving DecidableEq

def toUpperStr (s : String) : String := String.mk (s.data.map Char.toUpper)

/-- `resolveQuery`: pair detection, canonical fast-path, then search+filters.
The search endpoint is an oracle; the source's `defaultSearch` catches
transport errors into an empty list, so the oracle is total. -/
def resolveQuery (search : String → List Candidate) (rawQuery : String) :
    ResolveResult :=
  let q := strTrim rawQuery
  let lower : String := String.mk ((lowerL q.data).filter (fun c => !isWs c))
  let flags := detectFlags q
  match parsePair lower with
  | some (base, quote) =>
    match resolveCanonical base with
    | some baseId => ResolveResult.pair baseId (toUpperStr quote)
    | none =>
      match pickBest (search base) { flags with include_stablecoins := false } with
      | some picked => ResolveResult.pair picked.id (toUpperStr quote)
      | none => ResolveResult.noMatch "base_not_found"
  | none =>
    match resolveCanonical lower with
    | some canon => ResolveResult.coin canon
    | none =>
      match pickBest (search q) flags with
      | some picked => ResolveResult.coin picked.id
      | none => ResolveResult.noMatch "no_match"

end ResolverAdvanced

example : ResolverAdvanced.parsePair "btcusdt" = some ("btc", "usdt") := by decide

example : ResolverAdvanced.parsePair "eth/usdc" = some ("eth", "usdc") := by decide

example : ResolverAdvanced.parsePair "susdt" = none := by decide

example : ResolverAdvanced.parsePair "btcusdtx" = some ("btc", "usdt") := by decide

example : (ResolverAdvanced.detectFlags "usdc").include_stablecoins = true := by decide

example : (ResolverAdvanced.detectFlags "crv").include_stablecoins = false := by decide

/-- Upsert into a list keyed by the predicate `p`: replace every matching
element via `g` when one exists (`ON CONFLICT ... DO UPDATE`), append `fresh`
otherwise.  Models the SQL upserts; the conflict keys are unique by
construction, so at most one element matches. -/
def upsertBy (p : α → Bool) (g : α → α) (fresh : α) (l : List α) : List α :=
  match l.find? p with
  | none => l ++ [fresh]
  | some _ => l.map (fun r => if p r then g r else r)

namespace SmartResolverV2

structure CacheEntry where
  coinId : String
  expires : Nat
  confidence : Int
  chain : Option String
deriving DecidableEq

/-- A `ticker_mappings` row.  Audit columns that never influence control flow
(`created_at`, `updated_at`, `last_used`, `hit_count`, `contract_address`) are
omitted. -/
structure DbRow where
  ticker : String
  coingeckoId : String
  chain : Option String
  confidenceScore : Int
  expiresAt : Option Nat
  source : String
  isBanned : Bool
  banReason : Option String
deriving DecidableEq

/-- A `failed_resolutions` row. -/
structure FailRow where
  ticker : String
  failureCount : Nat
  lastReason : String
  lastFailed : Nat
  retryAfter : Nat
  chainHint : Option String
deriving DecidableEq

/-- The resolver's mutable state: the in-memory cache and hit buffer are JS
`Map`s (insertion-ordered association lists), `db`/`failures` are the two
persisted tables. -/
structure RState where
  memoryCache : List (String × CacheEntry)
  hitBuffer : List (String × Nat)
  db : List DbRow
  failures : List FailRow
deriving DecidableEq

def emptyState : RState := { memoryCache := [], hitBuffer := [], db := [], failures := [] }

def maxCacheSize : Nat := 500

def highConfidenceTTL : Nat := 7 * 24 * 60 * 60 * 1000

def lowConfidenceTTL : Nat := 24 * 60 * 60 * 1000

def defaultTTL : Nat := 3 * 24 * 60 * 60 * 1000

/-- `normalizeTicker` helpers: the pair-suffix regex
`/[-_\/](usdt|usdc|usd|busd|dai|eur|btc|eth)$/i` needs a separator character
and is anchored at the end, so a match is a leftmost position whose separator
is followed exactly by one of the suffixes. -/
def pairStripSeps : List Char := ['-', '_', '/']

def pairStripSufs : List (List Char) :=
  ["usdt".data, "usdc".data, "usd".data, "busd".data, "dai".data, "eur".data,
   "btc".data, "eth".data]

def stripPairSuf : List Char → List Char
  | [] => []
  | c :: rest =>
    if c ∈ pairStripSeps ∧ rest ∈ pairStripSufs then []
    else c :: stripPairSuf rest

/-- The derivative-suffix regex `/[-_\.]?(perp|perpetual|future|fut)$/i` has an
optional separator; either way the match starts at the same position and is
removed to the end. -/
def derivStripSeps : List Char := ['-', '_', '.']

def derivStripSufs : List (List Char) :=
  ["perp".data, "perpetual".data, "future".data, "fut".data]

def stripDerivSuf : List Char → List Char
  | [] => []
  | c :: rest =>
    if (c :: rest) ∈ derivStripSufs ∨ (c ∈ derivStripSeps ∧ rest ∈ derivStripSufs) then []
    else c :: stripDerivSuf rest

/-- The noise class `[-_\.\s]` removed everywhere. -/
def noiseChars : List Char := ['-', '_', '.', ' ', '\t', '\n', '\r']

/-- `normalizeTicker`: lowercase+trim, strip a leading cashtag `$`, strip an
anchored trading-pair suffix, strip an anchored derivative suffix, strip
noise characters, and validate the length. -/
def normalizeTicker (raw : String) : Option String :=
  if raw = "" then none
  else
    let n1 := trimL (lowerL raw.data)
    let n2 := match n1 with
      | '$' :: rest => rest
      | l => l
    let n3 := stripPairSuf n2
    let n4 := stripDerivSuf n3
    let n5 := n4.filter (fun c => !noiseChars.contains c)
    if n5.length < 1 ∨ n5.length > 20 then none else some (String.mk n5)

/-- `extractChainHint`: scan the raw input for chain keywords, defaulting to
the caller-supplied default chain. -/
def extractChainHint (originalInput : String) (defaultChain : Option String) :
    Option String :=
  let input := lowerL originalInput.data
  if containsL "eth ".data input || containsL " eth".data input then some "eth"
  else if containsL "sol ".data input || containsL " sol".data input then some "sol"
  else if containsL "bsc ".data input || containsL " bsc".data input then some "bsc"
  else if containsL "poly ".data input || containsL " polygon".data input then
    some "polygon"
  else if containsL "avax ".data input || containsL " avalanche".data input then
    some "avax"
  else defaultChain

def getCacheKey (ticker : String) (chainHint : Option String) : String :=
  match chainHint with
  | some h => ticker ++ "|" ++ h
  | none => ticker

def stablePatterns : List String := ["usdc", "usdt", "dai", "busd", "tusd", "frax"]

/-- The rule chain of `shouldBanFromLearning`, applied to the lowercased
ticker `lt` and lowercased coin id `lc`. -/
def shouldBanRules (lt lc : String) : Option String :=
  if strStarts lt "w" && decide (lt.length ≤ 5) then some "wrapped_token"
  else if strStarts lt "st" || strHas lc "staked" then some "staked_derivative"
  else if stablePatterns.contains lt then some "stablecoin_ambiguous"
  else if strHas lc "wormhole" || strHas lc "bridged" || strHas lc "pegged" then
    some "bridged_token"
  else if strHas lc "atoken" || strHas lc "ctoken" || strStarts lt "a" ||
      strStarts lt "c" then some "derivative_token"
  else if lt.length = 1 then some "single_letter_ambiguous"
  else none

/-- `shouldBanFromLearning`: `some reason` models `{banned: true, reason}`,
`none` models `{banned: false}`.  Empty strings are the falsy inputs of the JS
guard. -/
def shouldBanFromLearning (ticker coinId : String) : Option String :=
  if ticker = "" ∨ coinId = "" then some "invalid_input"
  else shouldBanRules (strLower ticker) (strLower coinId)

def lookupCache (c : List (String × CacheEntry)) (k : String) : Option CacheEntry :=
  (c.find? (fun p => p.1 == k)).map (·.2)

def cacheDelete (c : List (String × CacheEntry)) (k : String) :
    List (String × CacheEntry) :=
  c.filter (fun p => p.1 != k)

/-- `addToMemoryCache`: evict the oldest-inserted entry when full, then
`Map.set` (update in place when the key exists, append otherwise). -/
def addToMemoryCache (c : List (String × CacheEntry)) (k : String) (v : CacheEntry) :
    List (String × CacheEntry) :=
  let c' := if maxCacheSize ≤ c.length then c.drop 1 else c
  upsertBy (fun p => p.1 == k) (fun _ => (k, v)) (k, v) c'

/-- `recordHitBuffered`. -/
def bumpHit (hb : List (String × Nat)) (t : String) : List (String × Nat) :=
  upsertBy (fun p => p.1 == t) (fun p => (p.1, p.2 + 1)) (t, 1) hb

def findDbRow (db : List DbRow) (t : String) : Option DbRow :=
  db.find? (fun r => r.ticker == t)

/-- `getDatabaseMapping`.  `ticker` is the table's unique key (it is the
`ON CONFLICT` target), so `LIMIT 1`/`ORDER BY` reduce to inspecting the single
matching row.  Note the branch without a chain hint filters banned rows away in
SQL, while the chain-hint branch returns them. -/
def getDatabaseMapping (db : List DbRow) (t : String) (chainHint : Option String) :
    Option DbRow :=
  match chainHint with
  | none => db.find? (fun r => r.ticker == t && !r.isBanned)
  | some h =>
    match findDbRow db t with
    | none => none
    | some r => if r.chain == some h || r.chain == none then some r else none

def findFailRow (fs : List FailRow) (t : String) : Option FailRow :=
  fs.find? (fun r => r.ticker == t)

/-- The new failure count recorded by `recordFailure`. -/
def failCountNext (fs : List FailRow) (t : String) : Nat :=
  match findFailRow fs t with
  | some f => f.failureCount + 1
  | none => 1

/-- `Math.min(Math.pow(3, failureCount), 720)` minutes. -/
def backoffMinutes (failureCount : Nat) : Nat := min (3 ^ failureCount) 720

def retryAfterAt (now : Nat) (failureCount : Nat) : Nat :=
  now + backoffMinutes failureCount * 60 * 1000

/-- `recordFailure`: exponential backoff upsert into `failed_resolutions`. -/
def recordFailure (now : Nat) (st : RState) (ticker reason : String)
    (chainHint : Option String) : RState :=
  let n := failCountNext st.failures ticker
  let row : FailRow :=
    { ticker := ticker, failureCount := n, lastReason := reason, lastFailed := now,
      retryAfter := retryAfterAt now n, chainHint := chainHint }
  { st with
      failures := upsertBy (fun r => r.ticker == ticker) (fun _ => row) row st.failures }

/-- TTL tier by confidence. -/
def ttlForConfidence (confidence : Int) : Nat :=
  if 80 ≤ confidence then highConfidenceTTL
  else if confidence ≤ 50 then lowConfidenceTTL
  else defaultTTL

/-- `learnMapping`: insert a learned row, or on conflict keep the row and only
raise the confidence to the max and replace `expires_at` when the new
confidence strictly exceeds the old (the update clause touches no other
data column — in particular not `coingecko_id` or `is_banned`). -/
def learnMapping (now : Nat) (st : RState) (ticker coinId : String)
    (chainHint : Option String) (confidence : Int) : RState :=
  let expiresAt := now + ttlForConfidence confidence
  let fresh : DbRow :=
    { ticker := ticker, coingeckoId := coinId, chain := chainHint,
      confidenceScore := confidence, expiresAt := some expiresAt,
      source := "learned", isBanned := false, banReason := none }
  let merge : DbRow → DbRow := fun r =>
    { r with
        confidenceScore := max r.confidenceScore confidence,
        expiresAt := if r.confidenceScore < confidence then some expiresAt else r.expiresAt }
  { st with db := upsertBy (fun r => r.ticker == ticker) merge fresh st.db }

/-- `storeBannedMapping`: insert a banned row with confidence 0, or on conflict
only flip `is_banned` and the reason (the existing confidence is kept). -/
def storeBannedMapping (st : RState) (ticker coinId reason : String) : RState :=
  let fresh : DbRow :=
    { ticker := ticker, coingeckoId := coinId, chain := none, confidenceScore := 0,
      expiresAt := none, source := "admin", isBanned := true, banReason := some reason }
  let merge : DbRow → DbRow := fun r =>
    { r with isBanned := true, banReason := some reason }
  { st with db := upsertBy (fun r => r.ticker == ticker) merge fresh st.db }

/-- The outcome of a resolver step: the returned id, the updated state, and
whether the upstream search endpoint was contacted. -/
structure Outcome where
  result : Option String
  state : RState
  searchCalled : Bool
deriving DecidableEq

/-- `learnFromAPI`: delegate to `resolveCoinId`, then run the anti-poisoning
check; a ban is persisted and `null` returned, otherwise the mapping is
learned with the computed confidence and cached.  A falsy (absent or empty)
id records a `not_found` failure.  (`resolveCoinId` catches its own transport
errors, so the surrounding catch never fires in this model.) -/
def learnFromAPI (search : String → Option (List ResolveJs.RawCand)) (now : Nat)
    (st : RState) (ticker : String) (chainHint : Option String) : Outcome :=
  let r := ResolveJs.resolveCoinIdT search ticker
  match r.1 with
  | none =>
    { result := none, state := recordFailure now st ticker "not_found" chainHint,
      searchCalled := r.2 }
  | some coinId =>
    if coinId = "" then
      { result := none, state := recordFailure now st ticker "not_found" chainHint,
        searchCalled := r.2 }
    else
      match shouldBanFromLearning ticker coinId with
      | some reason =>
        { result := none, state := storeBannedMapping st ticker coinId reason,
          searchCalled := r.2 }
      | none =>
        let confidence : Int :=
          70 + (if strHas coinId ticker || decide (3 ≤ ticker.length) then 10 else 0)
             - (if ticker.length ≤ 2 then 20 else 0)
        let st1 := learnMapping now st ticker coinId chainHint confidence
        let key := getCacheKey ticker chainHint
        let entry : CacheEntry :=
          { coinId := coinId, expires := now + defaultTTL, confidence := confidence,
            chain := chainHint }
        let st2 := { st1 with memoryCache := addToMemoryCache st1.memoryCache key entry }
        { result := some coinId, state := st2, searchCalled := r.2 }

/-- Resolution step 3: the failure-tracker backoff check, then the learn path. -/
def resolveFromFailCheck (search : String → Option (List ResolveJs.RawCand))
    (now : Nat) (st : RState) (ticker : String) (chainHint : Option String) : Outcome :=
  match findFailRow st.failures ticker with
  | some f =>
    if now < f.retryAfter then { result := none, state := st, searchCalled := false }
    else learnFromAPI search now st ticker chainHint
  | none => learnFromAPI search now st ticker chainHint

/-- The expiry check `dbResult.expires_at && new Date(dbResult.expires_at) < new Date()`. -/
def dbExpired (r : DbRow) (now : Nat) : Bool :=
  match r.expiresAt with
  | some e => decide (e < now)
  | none => false

/-- Resolution step 2: the persisted-mapping lookup with ban and TTL checks.
A banned row short-circuits to `null`; an expired row falls through. -/
def resolveFromDb (search : String → Option (List ResolveJs.RawCand)) (now : Nat)
    (st : RState) (ticker : String) (chainHint : Option String) (cacheKey : String) :
    Outcome :=
  match getDatabaseMapping st.db ticker chainHint with
  | some dbResult =>
    if dbResult.isBanned then { result := none, state := st, searchCalled := false }
    else if dbExpired dbResult now then
      resolveFromFailCheck search now st ticker chainHint
    else
      let entry : CacheEntry :=
        { coinId := dbResult.coingeckoId, expires := now + defaultTTL,
          confidence := dbResult.confidenceScore, chain := dbResult.chain }
      { result := some dbResult.coingeckoId,
        state := { st with
                     memoryCache := addToMemoryCache st.memoryCache cacheKey entry,
                     hitBuffer := bumpHit st.hitBuffer ticker },
        searchCalled := false }
  | none => resolveFromFailCheck search now st ticker chainHint

/-- `resolve`: normalize, derive the chain hint and cache key, then walk
memory cache → persisted mapping → failure backoff → learn-from-API. -/
def resolve (search : String → Option (List ResolveJs.RawCand)) (now : Nat)
    (st : RState) (rawInput : String) (defaultChain : Option String) : Outcome :=
  match normalizeTicker rawInput with
  | none => { result := none, state := st, searchCalled := false }
  | some ticker =>
    let chainHint := extractChainHint rawInput defaultChain
    let cacheKey := getCacheKey ticker chainHint
    match lookupCache st.memoryCache cacheKey with
    | some cached =>
      if now < cached.expires then
        { result := some cached.coinId,
          state := { st with hitBuffer := bumpHit st.hitBuffer ticker },
          searchCalled := false }
      else
        resolveFromDb search now
          { st with memoryCache := cacheDelete st.memoryCache cacheKey }
          ticker chainHint cacheKey
    | none => resolveFromDb search now st ticker chainHint cacheKey

/-- `forceBan`: flip `is_banned` on an existing row (a pure `UPDATE`: a ticker
with no row is unaffected) and drop the plain-key cache and hit-buffer
entries.  Chain-suffixed cache keys are not touched. -/
def forceBan (st : RState) (ticker : String) (reason : String) : Bool × RState :=
  match normalizeTicker ticker with
  | none => (false, st)
  | some n =>
    (true,
     { st with
         db := st.db.map (fun r =>
           if r.ticker == n then { r with isBanned := true, banReason := some reason }
           else r),
         memoryCache := cacheDelete st.memoryCache n,
         hitBuffer := st.hitBuffer.filter (fun p => p.1 != n) })

/-- `forceUnban`: clear `is_banned` on an existing row. -/
def forceUnban (st : RState) (ticker : String) : Bool × RState :=
  match normalizeTicker ticker with
  | none => (false, st)
  | some n =>
    (true,
     { st with
         db := st.db.map (fun r =>
           if r.ticker == n then { r with isBanned := false, banReason := none }
           else r) })

end SmartResolverV2

example : SmartResolverV2.normalizeTicker "$BTC-usdt" = some "btc" := by decide

example : SmartResolverV2.normalizeTicker "btcusdt" = some "btcusdt" := by decide

example : SmartResolverV2.normalizeTicker "eth-perp" = some "eth" := by decide

example :
    (SmartResolverV2.resolve (fun _ => some []) 0 SmartResolverV2.emptyState "w"
      none).result = none := by decide

namespace CgBatcher

/-- A cached/returned quote.  The float payload is carried as exact integers:
the batcher only stores and forwards these values, never computes with them. -/
structure PriceData where
  price : Int
  change24h : Int
  marketCap : Option Int
deriving DecidableEq

def BATCH_WINDOW_MS : Nat := 50

def MAX_BATCH_SIZE : Nat := 250

def CACHE_TTL_MS : Nat := 30 * 1000

/-- `getPrices`: filter invalid ids (the falsy id is the empty string), fetch
each valid id, and scatter results back by `coinIds.indexOf(coinId)`.
`fetchOne id` is the settled outcome of `await getPrice(id)`: `some q` on
success, `none` when the promise rejected (missing id or batch error) and the
catch produced `null`. -/
def getPrices (fetchOne : String → Option PriceData) (coinIds : List String) :
    List (Option PriceData) :=
  if coinIds.isEmpty then []
  else
    let validCoinIds := coinIds.filter (fun id => id != "")
    if validCoinIds.isEmpty then List.replicate coinIds.length none
    else
      let results := validCoinIds.map (fun id => (coinIds.indexOf id, fetchOne id))
      results.foldl (fun acc p => acc.set p.1 p.2) (List.replicate coinIds.length none)

/-- The batching/coalescing state of the module:
`cache` maps ids to the timestamp of their cached quote, `pending` holds the
keys of `pendingRequests`, `queue` is `batchQueue` (a JS `Set`), `timerSet`
is `batchTimer !== null`, `inflight` lists the chunks whose upstream request
has been issued but not yet completed, and `requestLog` records every
upstream request ever issued (for counting). -/
structure BState where
  cache : List (String × Nat)
  pending : List String
  queue : List String
  timerSet : Bool
  inflight : List (List String)
  requestLog : List (List String)
deriving DecidableEq

def initState : BState :=
  { cache := [], pending := [], queue := [], timerSet := false, inflight := [],
    requestLog := [] }

inductive CallOutcome where
  | cachedHit
  | joinedPending
  | newRequest
deriving DecidableEq

def cacheLookup (c : List (String × Nat)) (id : String) : Option Nat :=
  (c.find? (fun p => p.1 == id)).map (·.2)

/-- `isCacheValid`. -/
def isCacheValid (now : Nat) (entry : Option Nat) : Bool :=
  match entry with
  | some ts => decide (now - ts < CACHE_TTL_MS)
  | none => false

/-- The synchronous prefix of `getPrice`: cache check, pending-request check,
then registration in the pending map and the batch queue (scheduling the
shared timer when none is set). -/
def getPriceStep (now : Nat) (st : BState) (id : String) : BState × CallOutcome :=
  if isCacheValid now (cacheLookup st.cache id) then (st, CallOutcome.cachedHit)
  else if st.pending.contains id then (st, CallOutcome.joinedPending)
  else
    ({ st with
         pending := st.pending ++ [id],
         queue := if st.queue.contains id then st.queue else st.queue ++ [id],
         timerSet := true },
     CallOutcome.newRequest)

/-- Split a list into chunks of `n` (the `MAX_BATCH_SIZE` slicing loop),
written with structural recursion; `acc` is the reversed current chunk and
`k` its length. -/
def chunksGo (n : Nat) (acc : List α) (k : Nat) : List α → List (List α)
  | [] => if acc.isEmpty then [] else [acc.reverse]
  | x :: xs =>
    if k + 1 == n then (x :: acc).reverse :: chunksGo n [] 0 xs
    else chunksGo n (x :: acc) (k + 1) xs

def chunksOf (n : Nat) (l : List α) : List (List α) := chunksGo n [] 0 l

/-- `processBatch` up to the point where the chunk requests are issued: drain
the queue, clear the timer, and put every chunk in flight. -/
def processBatchStep (st : BState) : BState :=
  if st.queue.isEmpty then st
  else
    let chunks := chunksOf MAX_BATCH_SIZE st.queue
    { st with
        queue := [], timerSet := false,
        inflight := st.inflight ++ chunks,
        requestLog := st.requestLog ++ chunks }

def removeOne (chunk : List String) : List (List String) → List (List String)
  | [] => []
  | c :: cs => if c == chunk then cs else c :: removeOne chunk cs

def cacheUpd (c : List (String × Nat)) (id : String) (ts : Nat) :
    List (String × Nat) :=
  upsertBy (fun p => p.1 == id) (fun _ => (id, ts)) (id, ts) c

/-- Completion of one in-flight chunk: cache the found ids and settle (remove)
the pending entries of every id in the chunk (found ids resolve, the rest
reject).  A completion event for a chunk that is not in flight is a no-op. -/
def completeStep (now : Nat) (found : List String) (chunk : List String)
    (st : BState) : BState :=
  if st.inflight.contains chunk then
    { st with
        inflight := removeOne chunk st.inflight,
        pending := st.pending.filter (fun x => !chunk.contains x),
        cache := chunk.foldl
          (fun acc id => if found.contains id then cacheUpd acc id now else acc)
          st.cache }
  else st

/-- Events of the batcher: a caller invoking `getPrice`, the batch-window timer
firing, and an upstream chunk request completing with the set of ids found. -/
inductive BEvent where
  | call (now : Nat) (id : String)
  | fire
  | complete (now : Nat) (found : List String) (chunk : List String)
deriving DecidableEq

def stepEv (st : BState) (e : BEvent) : BState :=
  match e with
  | BEvent.call now id => (getPriceStep now st id).1
  | BEvent.fire => processBatchStep st
  | BEvent.complete now found chunk => completeStep now found chunk st

def runEv (st : BState) (es : List BEvent) : BState := es.foldl stepEv st

/-- Run events and also collect each call's outcome. -/
def runOut (st : BState) (es : List BEvent) : BState × List CallOutcome :=
  es.foldl
    (fun p e =>
      match e with
      | BEvent.call now id =>
        let r := getPriceStep now p.1 id
        (r.1, p.2 ++ [r.2])
      | _ => (stepEv p.1 e, p.2))
    (st, [])

/-- How many in-flight upstream chunk requests mention `x`. -/
def inflightCount (st : BState) (x : String) : Nat :=
  st.inflight.countP (fun c => c.contains x)

end CgBatcher

example :
    CgBatcher.getPrices
      (fun id => if id = "bitcoin" then some { price := 5, change24h := 1, marketCap := none } else none)
      ["bitcoin", "missing", "bitcoin"] =
      [some { price := 5, change24h := 1, marketCap := none }, none, none] := by decide

example :
    (CgBatcher.runEv CgBatcher.initState
      [CgBatcher.BEvent.call 0 "bitcoin", CgBatcher.BEvent.call 1 "bitcoin",
       CgBatcher.BEvent.call 2 "bitcoin", CgBatcher.BEvent.fire]).requestLog =
      [["bitcoin"]] := by decide

theorem find?_append_right (p : α → Bool) (l1 l2 : List α) (h : l1.find? p = none) :
    (l1 ++ l2).find? p = l2.find? p := by
  induction l1 with
  | nil => simp
  | cons a l ih =>
    cases hpa : p a with
    | true => simp [List.find?, hpa] at h
    | false =>
      simp only [List.find?, hpa] at h
      simpa [List.find?, hpa] using ih h

theorem find?_map_if (p : α → Bool) (g : α → α) (l : List α) (a : α)
    (h : l.find? p = some a) (hg : p (g a) = true) :
    (l.map (fun r => if p r then g r else r)).find? p = some (g a) := by
  induction l with
  | nil => simp at h
  | cons x xs ih =>
    cases hx : p x with
    | true =>
      simp only [List.find?, hx] at h
      obtain rfl : x = a := by simpa using h
      simp [List.find?, hx, hg]
    | false =>
      simp only [List.find?, hx] at h
      simpa [List.find?, hx] using ih h

theorem find?_upsertBy (p : α → Bool) (g : α → α) (fresh : α) (l : List α)
    (hf : p fresh = true) (hg : ∀ a, p a = true → p (g a) = true) :
    (upsertBy p g fresh l).find? p =
      (match l.find? p with
       | none => some fresh
       | some a => some (g a)) := by
  unfold upsertBy
  cases hfind : l.find? p with
  | none =>
    rw [find?_append_right p l [fresh] hfind]
    simp [List.find?, hf]
  | some a =>
    exact find?_map_if p g l a hfind (hg a (List.find?_some hfind))

/-- Search oracle used in the ban-bypass scenario: the endpoint resolves
"pengu" to the legitimate Pudgy Penguins asset. -/
def penguOracle : String → Option (List ResolveJs.RawCand) :=
  fun q =>
    if q = "pengu" then
      some [{ id := "pudgy-penguins", name := "Pudgy Penguins", symbol := "pengu",
              rank := some 90 }]
    else some []

/-- State after first learning "pengu" successfully. -/
def penguState1 : SmartResolverV2.RState :=
  (SmartResolverV2.resolve penguOracle 0 SmartResolverV2.emptyState "pengu" none).state

/-- State after the admin then force-bans "pengu". -/
def penguState2 : SmartResolverV2.RState :=
  (SmartResolverV2.forceBan penguState1 "pengu" "admin_banned").2

/-- C1 (counterexample): the claim says `Resolve` returns the canonical
identifier for every canonical-table ticker on every call.  "w" is a key of
the canonical table (mapping to "wormhole"), yet `resolve` on a completely
empty state returns `null`: the canonical hit made inside the search delegate
is fed to the anti-poisoning rules, which ban it as a wrapped-token pattern. -/
theorem claim1_counterexample :
    (SmartResolverV2.resolve (fun _ => some []) 0 SmartResolverV2.emptyState "w"
        none).result = none ∧
    ResolveJs.canonicalLookup "w" = some "wormhole" ∧
    (SmartResolverV2.resolve (fun _ => some []) 0 SmartResolverV2.emptyState "w"
        none).result ≠ some "wormhole" := by decide

/-- C1 (amended): the canonical table wins over the search endpoint inside the
search delegate `resolveCoinId` — for a query whose trimmed lowercase form is a
canonical key, the delegate returns the canonical identifier without contacting
the search endpoint.  In the learning resolver, however, this happens only at
the learn stage: a fresh cache entry, a database mapping, or an active failure
backoff takes precedence, and the canonical result is still subject to the
anti-poisoning rules (so e.g. "w" resolves to null, per the counterexample). -/
theorem claim1_amended (search : String → Option (List ResolveJs.RawCand))
    (q id : String)
    (h : ResolveJs.canonicalLookup (strLower (strTrim q)) = some id) :
    ResolveJs.resolveCoinIdT search q = (some id, false) := by
  unfold ResolveJs.resolveCoinIdT
  simp only [h]

theorem claim1_amended_witness :
    ResolveJs.canonicalLookup (strLower (strTrim "sd")) = some "stader" ∧
    ResolveJs.resolveCoinIdT (fun _ => some []) "sd" = (some "stader", false) :=
  ⟨by decide, claim1_amended (fun _ => some []) "sd" "stader" (by decide)⟩

/-- C2 (code bug): ban monotonicity fails.  After "pengu" is learned and then
force-banned, the next `resolve` call returns the usable identifier again:
the no-chain-hint database query filters banned rows out in SQL, so the ban
check in `resolve` never sees the banned row and the learn path re-resolves
the ticker (and its upsert does not clear `is_banned`, so the row stays
banned in the store while `resolve` serves it). -/
theorem claim2_ban_bypass :
    (SmartResolverV2.resolve penguOracle 0 SmartResolverV2.emptyState "pengu"
        none).result = some "pudgy-penguins" ∧
    (SmartResolverV2.findDbRow penguState2.db "pengu").map (·.isBanned) = some true ∧
    (SmartResolverV2.resolve penguOracle 1000 penguState2 "pengu" none).result =
      some "pudgy-penguins" ∧
    (SmartResolverV2.findDbRow
        (SmartResolverV2.resolve penguOracle 1000 penguState2 "pengu" none).state.db
        "pengu").map (·.isBanned) = some true := by decide

/-- Search oracle for the stablecoin scenarios: the endpoint resolves "usdc"
to the high-ranking stablecoin "usd-coin". -/
def usdcSearch : String → List ResolverAdvanced.Candidate :=
  fun q =>
    if q = "usdc" then
      [{ id := "usd-coin", symbol := "usdc", name := "USD Coin", rank := some 40,
         categories := [] }]
    else []

/-- C3 (code bug): resolving the bare query "usdc" yields the stablecoin's
identifier instead of a blocked result.  `detectFlags` treats the literal
token "usdc" in the query as the explicit stablecoin signal, so `pickBest`
runs with `include_stablecoins = true` and the guard that would drop the
candidate entirely is bypassed — although the candidate is recognized as a
core stablecoin. -/
theorem claim3_guard_bypass :
    ResolverAdvanced.resolveQuery usdcSearch "usdc" =
      ResolverAdvanced.ResolveResult.coin "usd-coin" ∧
    (ResolverAdvanced.detectFlags "usdc").include_stablecoins = true ∧
    ResolverAdvanced.isStableCore
      { id := "usd-coin", symbol := "usdc", name := "USD Coin", rank := some 40,
        categories := [] } = true := by decide

/-- Search oracle resolving "usdc" for the learning resolver. -/
def usdcOracle : String → Option (List ResolveJs.RawCand) :=
  fun q =>
    if q = "usdc" then
      some [{ id := "usd-coin", name := "USD Coin", symbol := "usdc", rank := some 40 }]
    else some []

/-- State after the first "usdc" resolution stored a banned mapping. -/
def usdcState1 : SmartResolverV2.RState :=
  (SmartResolverV2.resolve usdcOracle 0 SmartResolverV2.emptyState "usdc" none).state

/-- C4 (code bug): the banned mapping (confidence 0) is persisted as claimed,
but a future lookup of the same ticker does not short-circuit: the banned row
is filtered out by the no-chain-hint database query, so `resolve` falls
through to the learn path and contacts the upstream search endpoint again
(`searchCalled = true` on the second call). -/
theorem claim4_no_short_circuit :
    (SmartResolverV2.resolve usdcOracle 0 SmartResolverV2.emptyState "usdc"
        none).result = none ∧
    (SmartResolverV2.findDbRow usdcState1.db "usdc").map
        (fun r => (r.isBanned, r.confidenceScore)) = some (true, 0) ∧
    (SmartResolverV2.resolve usdcOracle 1000 usdcState1 "usdc" none).searchCalled =
      true ∧
    (SmartResolverV2.resolve usdcOracle 1000 usdcState1 "usdc" none).result =
      none := by decide

theorem find?_and_none (db : List SmartResolverV2.DbRow) (t : String)
    (h : db.find? (fun r => r.ticker == t) = none) :
    db.find? (fun r => r.ticker == t && !r.isBanned) = none := by
  induction db with
  | nil => rfl
  | cons r rs ih =>
    cases hr : (r.ticker == t) with
    | true => simp [List.find?, hr] at h
    | false =>
      simp only [List.find?, hr, Bool.false_and] at h ⊢
      exact ih h

theorem getDatabaseMapping_none (db : List SmartResolverV2.DbRow) (t : String)
    (ch : Option String) (h : SmartResolverV2.findDbRow db t = none) :
    SmartResolverV2.getDatabaseMapping db t ch = none := by
  unfold SmartResolverV2.findDbRow at h
  cases ch with
  | none => exact find?_and_none db t h
  | some hc => simp [SmartResolverV2.getDatabaseMapping, SmartResolverV2.findDbRow, h]

theorem resolveFromDb_miss (search : String → Option (List ResolveJs.RawCand))
    (now : Nat) (st : SmartResolverV2.RState) (t : String) (ch : Option String)
    (ck : String) (h : SmartResolverV2.findDbRow st.db t = none) :
    SmartResolverV2.resolveFromDb search now st t ch ck =
      SmartResolverV2.resolveFromFailCheck search now st t ch := by
  unfold SmartResolverV2.resolveFromDb
  rw [getDatabaseMapping_none st.db t ch h]

theorem resolveFromFailCheck_backoff (search : String → Option (List ResolveJs.RawCand))
    (now : Nat) (st : SmartResolverV2.RState) (t : String) (ch : Option String)
    (f : SmartResolverV2.FailRow) (h4 : SmartResolverV2.findFailRow st.failures t = some f)
    (h5 : now < f.retryAfter) :
    SmartResolverV2.resolveFromFailCheck search now st t ch =
      { result := none, state := st, searchCalled := false } := by
  unfold SmartResolverV2.resolveFromFailCheck
  rw [h4]
  simp [h5]

/-- C7: each recorded failure upserts a row whose `retryAfter` is now plus
`min(3^failureCount, 720)` minutes (the new count being the old count plus
one); consecutive failures yield strictly increasing `retryAfter` values (the
code can only record a second failure once the first backoff has expired,
which is the stated hypothesis) capped at 720 minutes past the failure time;
and an attempt made before `retryAfter` — when neither the memory cache nor
the database can serve the ticker — returns `null` without contacting the
upstream search endpoint and without changing the state. -/
theorem claim7_backoff :
    (∀ (now : Nat) (st : SmartResolverV2.RState) (t reason : String)
        (hint : Option String),
        SmartResolverV2.findFailRow
            (SmartResolverV2.recordFailure now st t reason hint).failures t =
          some { ticker := t,
                 failureCount := SmartResolverV2.failCountNext st.failures t,
                 lastReason := reason, lastFailed := now,
                 retryAfter :=
                   SmartResolverV2.retryAfterAt now
                     (SmartResolverV2.failCountNext st.failures t),
                 chainHint := hint }) ∧
    (∀ t1 t2 c : Nat, SmartResolverV2.retryAfterAt t1 c ≤ t2 →
        SmartResolverV2.retryAfterAt t1 c < SmartResolverV2.retryAfterAt t2 (c + 1)) ∧
    (∀ now c : Nat, SmartResolverV2.retryAfterAt now c ≤ now + 720 * 60 * 1000) ∧
    (∀ (search : String → Option (List ResolveJs.RawCand)) (now : Nat)
        (st : SmartResolverV2.RState) (raw : String) (dc : Option String)
        (t : String) (f : SmartResolverV2.FailRow),
        SmartResolverV2.normalizeTicker raw = some t →
        SmartResolverV2.lookupCache st.memoryCache
          (SmartResolverV2.getCacheKey t (SmartResolverV2.extractChainHint raw dc)) =
            none →
        SmartResolverV2.findDbRow st.db t = none →
        SmartResolverV2.findFailRow st.failures t = some f →
        now < f.retryAfter →
        SmartResolverV2.resolve search now st raw dc =
          { result := none, state := st, searchCalled := false }) := by
  refine ⟨?_, ?_, ?_, ?_⟩
  · intro now st t reason hint
    unfold SmartResolverV2.recordFailure
    unfold SmartResolverV2.findFailRow
    rw [find?_upsertBy _ _ _ _ (by simp) (fun a _ => by simp)]
    unfold SmartResolverV2.failCountNext SmartResolverV2.findFailRow
    cases st.failures.find? (fun r => r.ticker == t) <;> rfl
  · intro t1 t2 c h
    have h3 : 0 < 3 ^ (c + 1) := pow_pos (by norm_num) (c + 1)
    have hm : 0 < min (3 ^ (c + 1)) 720 := lt_min h3 (by norm_num)
    unfold SmartResolverV2.retryAfterAt SmartResolverV2.backoffMinutes at h ⊢
    omega
  · intro now c
    have := Nat.min_le_right (3 ^ c) 720
    unfold SmartResolverV2.retryAfterAt SmartResolverV2.backoffMinutes
    omega
  · intro search now st raw dc t f h1 h2 h3 h4 h5
    unfold SmartResolverV2.resolve
    simp only [h1]
    rw [h2, resolveFromDb_miss search now st t _ _ h3,
      resolveFromFailCheck_backoff search now st t _ f h4 h5]

/-- A failure row used to witness the backoff refusal. -/
def c7Fail : SmartResolverV2.FailRow :=
  { ticker := "zzz", failureCount := 1, lastReason := "not_found", lastFailed := 0,
    retryAfter := SmartResolverV2.retryAfterAt 0 1, chainHint := none }

def c7State : SmartResolverV2.RState :=
  { memoryCache := [], hitBuffer := [], db := [], failures := [c7Fail] }

theorem claim7_backoff_witness :
    SmartResolverV2.findFailRow
        (SmartResolverV2.recordFailure 7 SmartResolverV2.emptyState "zzz" "not_found"
          none).failures "zzz" =
      some { ticker := "zzz", failureCount := 1, lastReason := "not_found",
             lastFailed := 7, retryAfter := SmartResolverV2.retryAfterAt 7 1,
             chainHint := none } ∧
    SmartResolverV2.retryAfterAt 0 1 <
      SmartResolverV2.retryAfterAt (SmartResolverV2.retryAfterAt 0 1) 2 ∧
    SmartResolverV2.retryAfterAt 9 3 ≤ 9 + 720 * 60 * 1000 ∧
    SmartResolverV2.resolve (fun _ => some []) 1000 c7State "zzz" none =
      { result := none, state := c7State, searchCalled := false } := by
  obtain ⟨h1, h2, h3, h4⟩ := claim7_backoff
  exact ⟨h1 7 SmartResolverV2.emptyState "zzz" "not_found" none,
         h2 0 (SmartResolverV2.retryAfterAt 0 1) 1 le_rfl,
         h3 9 3,
         h4 (fun _ => some []) 1000 c7State "zzz" none "zzz" c7Fail (by decide)
           (by decide) (by decide) (by decide) (by decide)⟩

theorem ttlForConfidence_mono (c1 c2 : Int) (h : c1 ≤ c2) :
    SmartResolverV2.ttlForConfidence c1 ≤ SmartResolverV2.ttlForConfidence c2 := by
  unfold SmartResolverV2.ttlForConfidence SmartResolverV2.highConfidenceTTL
    SmartResolverV2.lowConfidenceTTL SmartResolverV2.defaultTTL
  split_ifs <;> omega

/-- C8: on a repeated learn of an existing mapping, the stored confidence is
the max of old and new; `expires_at` is replaced (with now plus the tier TTL
of the new confidence) exactly when the new confidence strictly exceeds the
old; and therefore, when the old expiry itself came from a learn at an
earlier time, the expiry never decreases. -/
theorem claim8_confidence_ttl (now : Nat) (st : SmartResolverV2.RState)
    (t coinId : String) (chain : Option String) (conf : Int)
    (old : SmartResolverV2.DbRow)
    (hOld : SmartResolverV2.findDbRow st.db t = some old) :
    ∃ r, SmartResolverV2.findDbRow
        (SmartResolverV2.learnMapping now st t coinId chain conf).db t = some r ∧
      r.confidenceScore = max old.confidenceScore conf ∧
      (old.confidenceScore < conf →
        r.expiresAt = some (now + SmartResolverV2.ttlForConfidence conf)) ∧
      (¬ old.confidenceScore < conf → r.expiresAt = old.expiresAt) ∧
      (∀ t0, old.expiresAt =
          some (t0 + SmartResolverV2.ttlForConfidence old.confidenceScore) →
        t0 ≤ now →
        ∃ e, r.expiresAt = some e ∧
          t0 + SmartResolverV2.ttlForConfidence old.confidenceScore ≤ e) := by
  unfold SmartResolverV2.learnMapping
  unfold SmartResolverV2.findDbRow at hOld ⊢
  rw [find?_upsertBy _ _ _ _ (by simp) (fun a ha => by simpa using ha), hOld]
  refine ⟨_, rfl, rfl, ?_, ?_, ?_⟩
  · intro hlt
    simp [hlt]
  · intro hge
    simp [hge]
  · intro t0 hE hT
    by_cases hlt : old.confidenceScore < conf
    · refine ⟨now + SmartResolverV2.ttlForConfidence conf, by simp [hlt], ?_⟩
      have := ttlForConfidence_mono old.confidenceScore conf (le_of_lt hlt)
      omega
    · exact ⟨t0 + SmartResolverV2.ttlForConfidence old.confidenceScore,
        by simp [hlt, hE], le_rfl⟩

def c8Row : SmartResolverV2.DbRow :=
  { ticker := "pengu", coingeckoId := "pudgy-penguins", chain := none,
    confidenceScore := 60,
    expiresAt := some (0 + SmartResolverV2.ttlForConfidence 60), source := "learned",
    isBanned := false, banReason := none }

def c8State : SmartResolverV2.RState :=
  { memoryCache := [], hitBuffer := [], db := [c8Row], failures := [] }

theorem claim8_confidence_ttl_witness :
    ∃ r, SmartResolverV2.findDbRow
        (SmartResolverV2.learnMapping 5000 c8State "pengu" "pudgy-penguins" none
          80).db "pengu" = some r ∧
      r.confidenceScore = max c8Row.confidenceScore 80 ∧
      (c8Row.confidenceScore < 80 →
        r.expiresAt = some (5000 + SmartResolverV2.ttlForConfidence 80)) ∧
      (¬ c8Row.confidenceScore < 80 → r.expiresAt = c8Row.expiresAt) ∧
      (∀ t0, c8Row.expiresAt =
          some (t0 + SmartResolverV2.ttlForConfidence c8Row.confidenceScore) →
        t0 ≤ 5000 →
        ∃ e, r.expiresAt = some e ∧
          t0 + SmartResolverV2.ttlForConfidence c8Row.confidenceScore ≤ e) :=
  claim8_confidence_ttl 5000 c8State "pengu" "pudgy-penguins" none 80 c8Row (by decide)

/-- Any ticker meeting one of the listed shape conditions is classified as
banned by the anti-poisoning rules (regardless of the resolved id). -/
theorem shouldBan_isSome_of_cond (ticker coinId : String) (_ht : ticker ≠ "")
    (hcond : strStarts (strLower ticker) "a" = true ∨
             strStarts (strLower ticker) "c" = true ∨
             strStarts (strLower ticker) "st" = true ∨
             (strStarts (strLower ticker) "w" = true ∧ ticker.length ≤ 5) ∨
             ticker.length = 1) :
    (SmartResolverV2.shouldBanFromLearning ticker coinId).isSome = true := by
  unfold SmartResolverV2.shouldBanFromLearning
  by_cases hz : ticker = "" ∨ coinId = ""
  · simp [hz]
  · rw [if_neg hz]
    have hlen : (strLower ticker).length = ticker.length :=
      List.length_map ticker.data Char.toLower
    unfold SmartResolverV2.shouldBanRules
    split_ifs with h1 h2 h3 h4 h5 h6 <;> try rfl
    exfalso
    simp only [Bool.and_eq_true, Bool.or_eq_true, decide_eq_true_eq, not_and,
      not_or, not_le] at h1 h2 h5
    rcases hcond with hA | hC | hST | ⟨hW, hWl⟩ | h1len
    · exact absurd hA (by tauto)
    · exact absurd hC (by tauto)
    · exact absurd hST (by tauto)
    · exact absurd (h1 hW) (by omega)
    · exact h6 (by omega)

/-- C10: every freshly learned ticker starting with "a" or "c", or with "st",
or with "w" at length ≤ 5, or of length exactly 1, is classified as banned by
`shouldBanFromLearning`; consequently `learnFromAPI` — whenever the search
delegate resolves the ticker to some (non-empty) id — persists a banned
mapping for it and returns `null`, so such tickers never enter the store as
usable learned mappings. -/
theorem claim10_shape_bans (ticker : String) (ht : ticker ≠ "")
    (hcond : strStarts (strLower ticker) "a" = true ∨
             strStarts (strLower ticker) "c" = true ∨
             strStarts (strLower ticker) "st" = true ∨
             (strStarts (strLower ticker) "w" = true ∧ ticker.length ≤ 5) ∨
             ticker.length = 1) :
    (∀ coinId, coinId ≠ "" →
        (SmartResolverV2.shouldBanFromLearning ticker coinId).isSome = true) ∧
    (∀ (search : String → Option (List ResolveJs.RawCand)) (now : Nat)
        (st : SmartResolverV2.RState) (hint : Option String) (res : String) (b : Bool),
        res ≠ "" →
        ResolveJs.resolveCoinIdT search ticker = (some res, b) →
        (SmartResolverV2.learnFromAPI search now st ticker hint).result = none ∧
        (SmartResolverV2.findDbRow
            (SmartResolverV2.learnFromAPI search now st ticker hint).state.db
            ticker).map (·.isBanned) = some true) := by
  constructor
  · intro coinId _
    exact shouldBan_isSome_of_cond ticker coinId ht hcond
  · intro search now st hint res b hres heq
    have hban := shouldBan_isSome_of_cond ticker res ht hcond
    obtain ⟨reason, hreason⟩ := Option.isSome_iff_exists.mp hban
    unfold SmartResolverV2.learnFromAPI
    rw [heq]
    simp only [if_neg hres, hreason]
    constructor
    · trivial
    · unfold SmartResolverV2.storeBannedMapping SmartResolverV2.findDbRow
      rw [find?_upsertBy _ _ _ _ (by simp) (fun a ha => by simpa using ha)]
      cases st.db.find? (fun r => r.ticker == ticker) <;> rfl

theorem indexOf_lt_length_of_mem {α} [BEq α] [LawfulBEq α] {a : α} {l : List α}
    (h : a ∈ l) : l.indexOf a < l.length := by
  induction l with
  | nil => simp at h
  | cons b bs ih =>
    unfold List.indexOf at ih ⊢
    rw [List.findIdx_cons]
    cases hb : b == a with
    | true => simp
    | false =>
      have : a ∈ bs := by
        rcases List.mem_cons.mp h with rfl | hm
        · simp at hb
        · exact hm
      simpa using ih this

theorem getElem?_indexOf_self {α} [BEq α] [LawfulBEq α] {a : α} {l : List α}
    (h : a ∈ l) : l[l.indexOf a]? = some a := by
  induction l with
  | nil => simp at h
  | cons b bs ih =>
    unfold List.indexOf at ih ⊢
    rw [List.findIdx_cons]
    cases hb : b == a with
    | true =>
      have : b = a := by simpa using hb
      simp [this]
    | false =>
      have : a ∈ bs := by
        rcases List.mem_cons.mp h with rfl | hm
        · simp at hb
        · exact hm
      simpa using ih this

theorem indexOf_of_getElem?_nodup {α} [BEq α] [LawfulBEq α] {l : List α}
    (h : l.Nodup) {i : Nat} {a : α} (hga : l[i]? = some a) : l.indexOf a = i := by
  induction l generalizing i with
  | nil => simp at hga
  | cons b bs ih =>
    unfold List.indexOf at ih ⊢
    rw [List.findIdx_cons]
    cases i with
    | zero =>
      obtain rfl : b = a := by simpa using hga
      simp
    | succ j =>
      rw [List.getElem?_cons_succ] at hga
      have hmem : a ∈ bs := by
        rcases List.getElem?_eq_some.mp hga with ⟨hj, rfl⟩
        exact List.getElem_mem _
      have hb : (b == a) = false := by
        rcases List.nodup_cons.mp h with ⟨hnb, _⟩
        have : b ≠ a := fun hba => hnb (hba ▸ hmem)
        simpa using this
      rw [hb]
      simp [ih (List.nodup_cons.mp h).2 hga]

theorem foldl_set_length (ws : List (Nat × Option CgBatcher.PriceData))
    (init : List (Option CgBatcher.PriceData)) :
    (ws.foldl (fun acc p => acc.set p.1 p.2) init).length = init.length := by
  induction ws generalizing init with
  | nil => rfl
  | cons w ws ih => rw [List.foldl_cons, ih, List.length_set]

theorem foldl_set_getElem?_of_ne (ws : List (Nat × Option CgBatcher.PriceData))
    (init : List (Option CgBatcher.PriceData)) (i : Nat)
    (hne : ∀ w ∈ ws, w.1 ≠ i) :
    (ws.foldl (fun acc p => acc.set p.1 p.2) init)[i]? = init[i]? := by
  induction ws generalizing init with
  | nil => rfl
  | cons w ws ih =>
    rw [List.foldl_cons, ih _ (fun x hx => hne x (List.mem_cons_of_mem _ hx)),
      List.getElem?_set_ne (hne w (List.mem_cons_self w ws))]

/-- Quote used in the order-preservation scenarios. -/
def qBtc : CgBatcher.PriceData := { price := 97000, change24h := 2, marketCap := some 1 }

def fetchBtc : String → Option CgBatcher.PriceData :=
  fun id => if id = "bitcoin" then some qBtc else none

/-- C5 (counterexample): the claim says the i-th entry of the result is the
quote for the i-th input id.  With a duplicated id the scatter step uses
`coinIds.indexOf(coinId)`, which always points at the first occurrence, so
the second position stays `null` even though its id resolved successfully. -/
theorem claim5_counterexample :
    CgBatcher.getPrices fetchBtc ["bitcoin", "bitcoin"] = [some qBtc, none] ∧
    fetchBtc "bitcoin" = some qBtc ∧
    CgBatcher.getPrices fetchBtc ["bitcoin", "bitcoin"] ≠ [some qBtc, some qBtc] := by
  decide

/-- C5 (amended): for an input list of pairwise-distinct ids, `getPrices`
returns one entry per input id, in input order: the quote delivered for that
id, or `null` when the id is invalid (empty) or its lookup failed.  (With
duplicate ids, only the first occurrence receives the quote — see the
counterexample.)  Completion order plays no role: the embedding is a function
of the per-id settled outcomes only. -/
theorem claim5_order (f : String → Option CgBatcher.PriceData) (ids : List String)
    (h : ids.Nodup) :
    CgBatcher.getPrices f ids = ids.map (fun id => if id = "" then none else f id) := by
  unfold CgBatcher.getPrices
  by_cases hemp : ids.isEmpty
  · rw [if_pos hemp]
    rw [List.isEmpty_iff] at hemp
    rw [hemp]
    rfl
  · rw [if_neg hemp]
    by_cases hv : (ids.filter (fun id => id != "")).isEmpty
    · rw [if_pos hv]
      rw [List.isEmpty_iff] at hv
      have hall : ∀ x ∈ ids, x = "" := by
        intro x hx
        by_contra hne
        have hmem : x ∈ ids.filter (fun id => id != "") :=
          List.mem_filter.mpr ⟨hx, by simpa using hne⟩
        rw [hv] at hmem
        simp at hmem
      have h2 : ids.map (fun id => if id = "" then none else f id) =
          List.replicate (ids.map (fun id => if id = "" then none else f id)).length
            (none : Option CgBatcher.PriceData) := by
        apply List.eq_replicate_of_mem
        intro b hb
        obtain ⟨x, hx, rfl⟩ := List.mem_map.mp hb
        simp [hall x hx]
      rw [h2, List.length_map]
    · rw [if_neg hv]
      apply List.ext_getElem?
      intro i
      by_cases hi : i < ids.length
      · have ha : ids[i]? = some (ids[i]) := List.getElem?_eq_getElem hi
        generalize hax : ids[i] = a at ha
        have hrhs : (ids.map (fun id => if id = "" then none else f id))[i]? =
            some (if a = "" then none else f a) := by
          rw [List.getElem?_map, ha]
          rfl
        rw [hrhs]
        by_cases haz : a = ""
        · subst haz
          have hne : ∀ w ∈ (ids.filter (fun id => id != "")).map
              (fun id => (ids.indexOf id, f id)), w.1 ≠ i := by
            intro w hw
            obtain ⟨u, hu, rfl⟩ := List.mem_map.mp hw
            obtain ⟨humem, hune⟩ := List.mem_filter.mp hu
            intro hidx
            have hidx2 : ids.indexOf u = i := hidx
            have : ids[ids.indexOf u]? = some u := getElem?_indexOf_self humem
            rw [hidx2, ha] at this
            obtain rfl : u = "" := by simpa using this.symm
            simp at hune
          rw [foldl_set_getElem?_of_ne _ _ i hne]
          simp [List.getElem?_replicate, hi]
        · have hmem : a ∈ ids.filter (fun id => id != "") := by
            refine List.mem_filter.mpr ⟨?_, by simpa using haz⟩
            rcases List.getElem?_eq_some.mp ha with ⟨hh, rfl⟩
            exact List.getElem_mem _
          obtain ⟨s, t, hst⟩ := List.append_of_mem hmem
          have hnodf : (ids.filter (fun id => id != "")).Nodup := h.filter _
          rw [hst] at hnodf
          have hanots : a ∉ s := by
            intro hin
            exact (List.disjoint_of_nodup_append hnodf) hin (List.mem_cons_self a t)
          have hanott : a ∉ t := by
            have := (List.nodup_append.mp hnodf).2.1
            exact (List.nodup_cons.mp this).1
          have hidxa : ids.indexOf a = i := indexOf_of_getElem?_nodup h ha
          have hstep : (ids.filter (fun id => id != "")).map
              (fun id => (ids.indexOf id, f id)) =
              s.map (fun id => (ids.indexOf id, f id)) ++
                (i, f a) :: t.map (fun id => (ids.indexOf id, f id)) := by
            rw [hst, List.map_append, List.map_cons, hidxa]
          rw [hstep, List.foldl_append, List.foldl_cons]
          have hnet : ∀ w ∈ t.map (fun id => (ids.indexOf id, f id)), w.1 ≠ i := by
            intro w hw
            obtain ⟨u, hu, rfl⟩ := List.mem_map.mp hw
            intro hidx
            have hidx2 : ids.indexOf u = i := hidx
            have : ids[ids.indexOf u]? = some u :=
              getElem?_indexOf_self (by
                have : u ∈ ids.filter (fun id => id != "") := by
                  rw [hst]
                  exact List.mem_append_right _ (List.mem_cons_of_mem _ hu)
                exact (List.mem_filter.mp this).1)
            rw [hidx2, ha] at this
            obtain rfl : u = a := by simpa using this.symm
            exact hanott hu
          rw [foldl_set_getElem?_of_ne _ _ i hnet]
          have hlen : i < (s.map (fun id => (ids.indexOf id, f id))|>.foldl
              (fun acc p => acc.set p.1 p.2)
              (List.replicate ids.length (none : Option CgBatcher.PriceData))).length := by
            rw [foldl_set_length, List.length_replicate]
            exact hi
          rw [List.getElem?_set_self hlen]
          simp [haz]
      · have hni : ids.length ≤ i := Nat.le_of_not_lt hi
        rw [List.getElem?_eq_none (l := ids.map fun id => if id = "" then none else f id)
          (by simpa using hni)]
        apply List.getElem?_eq_none
        rw [foldl_set_length, List.length_replicate]
        exact hni

theorem claim5_order_witness :
    CgBatcher.getPrices fetchBtc ["bitcoin", "missing", ""] =
      List.map (fun id => if id = "" then none else fetchBtc id)
        ["bitcoin", "missing", ""] :=
  claim5_order fetchBtc ["bitcoin", "missing", ""] (by decide)

/-- A quote-position match for the amended pair-parser statement: the quote
is found right after the base, with at most one separator in between, but
trailing characters after it are ignored. -/
def quoteFollows (rest : List Char) (q : String) : Prop :=
  startsWithL rest q.data = true ∨
    ∃ c rs, rest = c :: rs ∧ c ∈ ResolverAdvanced.pairSeps ∧
      startsWithL rs q.data = true

theorem quoteAt_sound (rest : List Char) (q : String)
    (h : ResolverAdvanced.quoteAt rest = some q) :
    q ∈ ResolverAdvanced.QUOTES ∧ startsWithL rest q.data = true := by
  unfold ResolverAdvanced.quoteAt at h
  have h7 := @List.find?_some String (fun s : String => startsWithL rest s.data) q
    ResolverAdvanced.QUOTES h
  exact ⟨List.mem_of_find?_eq_some h, h7⟩

theorem quoteAfterSep_sound (rest : List Char) (q : String)
    (h : ResolverAdvanced.quoteAfterSep rest = some q) :
    q ∈ ResolverAdvanced.QUOTES ∧ quoteFollows rest q := by
  cases rest with
  | nil => simp [ResolverAdvanced.quoteAfterSep] at h
  | cons c rs =>
    have h2 : (if ResolverAdvanced.pairSeps.contains c = true then
        (ResolverAdvanced.quoteAt rs).orElse
          (fun _ => ResolverAdvanced.quoteAt (c :: rs))
      else ResolverAdvanced.quoteAt (c :: rs)) = some q := h
    by_cases hc : ResolverAdvanced.pairSeps.contains c = true
    · rw [if_pos hc] at h2
      cases hq : ResolverAdvanced.quoteAt rs with
      | some q1 =>
        rw [hq] at h2
        obtain rfl : q1 = q := Option.some.inj h2
        obtain ⟨hmem, hsw⟩ := quoteAt_sound rs q1 hq
        exact ⟨hmem, Or.inr ⟨c, rs, rfl, by simpa using hc, hsw⟩⟩
      | none =>
        rw [hq] at h2
        obtain ⟨hmem, hsw⟩ := quoteAt_sound (c :: rs) q h2
        exact ⟨hmem, Or.inl hsw⟩
    · rw [if_neg hc] at h2
      obtain ⟨hmem, hsw⟩ := quoteAt_sound (c :: rs) q h2
      exact ⟨hmem, Or.inl hsw⟩

theorem parsePairAux_sound (cs : List Char) :
    ∀ (n : Nat) (b q : String), ResolverAdvanced.parsePairAux cs n = some (b, q) →
      ∃ rest, cs = b.data ++ rest ∧ 2 ≤ b.data.length ∧
        q ∈ ResolverAdvanced.QUOTES ∧ quoteFollows rest q := by
  intro n
  induction n with
  | zero =>
    intro b q h
    simp [ResolverAdvanced.parsePairAux] at h
  | succ m ih =>
    intro b q h
    cases m with
    | zero => simp [ResolverAdvanced.parsePairAux] at h
    | succ k =>
      rw [ResolverAdvanced.parsePairAux] at h
      by_cases hc :
          ((cs.take (k + 2)).length == k + 2 && (cs.take (k + 2)).all
            ResolverAdvanced.baseChar) = true
      · rw [if_pos hc] at h
        cases hqa : ResolverAdvanced.quoteAfterSep (cs.drop (k + 2)) with
        | some qv =>
          rw [hqa] at h
          have h3 : some (String.mk (cs.take (k + 2)), qv) = some (b, q) := h
          obtain ⟨h4, h5⟩ : String.mk (cs.take (k + 2)) = b ∧ qv = q :=
            ⟨congrArg Prod.fst (Option.some.inj h3), congrArg Prod.snd (Option.some.inj h3)⟩
          obtain ⟨hmem, hfol⟩ := quoteAfterSep_sound _ _ hqa
          have hlen : (cs.take (k + 2)).length = k + 2 := by
            have h6 := hc
            simp only [Bool.and_eq_true, beq_iff_eq] at h6
            exact h6.1
          subst h4
          subst h5
          refine ⟨cs.drop (k + 2), ?_, ?_, hmem, ?_⟩
          · exact (List.take_append_drop (k + 2) cs).symm
          · show 2 ≤ (cs.take (k + 2)).length
            omega
          · show quoteFollows (cs.drop (k + 2)) qv
            exact hfol
        | none =>
          rw [hqa] at h
          exact ih b q h
      · rw [if_neg hc] at h
        exact ih b q h

/-- C9 (counterexample): the claim says a split happens only when the quote is
an anchored suffix of the input.  The regex has no end anchor: "btcusdtx"
splits as (btc, usdt) although "usdt" is not a suffix of the input. -/
theorem claim9_counterexample :
    ResolverAdvanced.parsePair "btcusdtx" = some ("btc", "usdt") ∧
    endsWithL "btcusdtx".data "usdt".data = false := by decide

/-- C9 (amended): `parsePair` splits only when a quote symbol from the fixed
set immediately follows a non-empty base of at least 2 characters (with at
most one of `/:-` in between) — but the quote is matched as an infix, not an
anchored suffix: trailing characters after the quote are ignored.  An input
that is itself exactly one of the quote symbols is still never split. -/
theorem claim9_pair_split (s : String) :
    (∀ b q, ResolverAdvanced.parsePair s = some (b, q) →
      ∃ rest, s.data = b.data ++ rest ∧ 2 ≤ b.length ∧
        q ∈ ResolverAdvanced.QUOTES ∧ quoteFollows rest q) ∧
    (s ∈ ResolverAdvanced.QUOTES → ResolverAdvanced.parsePair s = none) := by
  constructor
  · intro b q h
    exact parsePairAux_sound s.data s.data.length b q h
  · intro hs
    revert hs
    have : ∀ q ∈ ResolverAdvanced.QUOTES, ResolverAdvanced.parsePair q = none := by
      decide
    exact this s

theorem claim9_pair_split_witness :
    (∃ rest, "btcusdt".data = "btc".data ++ rest ∧ 2 ≤ "btc".length ∧
      "usdt" ∈ ResolverAdvanced.QUOTES ∧ quoteFollows rest "usdt") ∧
    ResolverAdvanced.parsePair "usdt" = none :=
  ⟨(claim9_pair_split "btcusdt").1 "btc" "usdt" (by decide),
   (claim9_pair_split "usdt").2 (by decide)⟩

/-- The coordination invariant of the batcher state: no duplicate pending or
queued ids, queued and in-flight ids are pending, in-flight chunks are
duplicate-free and pairwise disjoint, and queued ids are in no in-flight
chunk. -/
def BInv (st : CgBatcher.BState) : Prop :=
  st.pending.Nodup ∧ st.queue.Nodup ∧
  (∀ x ∈ st.queue, x ∈ st.pending) ∧
  (∀ c ∈ st.inflight, ∀ x ∈ c, x ∈ st.pending) ∧
  st.inflight.Pairwise List.Disjoint ∧
  (∀ c ∈ st.inflight, c.Nodup) ∧
  (∀ x ∈ st.queue, ∀ c ∈ st.inflight, x ∉ c)

theorem chunksGo_flatten {α} (n : Nat) :
    ∀ (l acc : List α) (k : Nat),
      (CgBatcher.chunksGo n acc k l).flatten = acc.reverse ++ l := by
  intro l
  induction l with
  | nil =>
    intro acc k
    by_cases h : acc.isEmpty
    · rw [List.isEmpty_iff] at h
      simp [CgBatcher.chunksGo, h]
    · simp [CgBatcher.chunksGo, h]
  | cons x xs ih =>
    intro acc k
    by_cases h : (k + 1 == n) = true
    · simp [CgBatcher.chunksGo, h, ih]
    · simp only [CgBatcher.chunksGo]
      rw [if_neg h, ih (x :: acc) (k + 1)]
      simp

theorem chunksOf_flatten {α} (n : Nat) (l : List α) :
    (CgBatcher.chunksOf n l).flatten = l := by
  unfold CgBatcher.chunksOf
  rw [chunksGo_flatten]
  rfl

theorem mem_of_mem_chunksOf {α} (n : Nat) (l : List α) (c : List α)
    (hc : c ∈ CgBatcher.chunksOf n l) (x : α) (hx : x ∈ c) : x ∈ l := by
  rw [← chunksOf_flatten n l]
  exact List.mem_flatten.mpr ⟨c, hc, hx⟩

theorem chunksOf_nodup_parts {α} (n : Nat) (l : List α) (h : l.Nodup) :
    (∀ c ∈ CgBatcher.chunksOf n l, c.Nodup) ∧
      (CgBatcher.chunksOf n l).Pairwise List.Disjoint := by
  have : (CgBatcher.chunksOf n l).flatten.Nodup := by
    rw [chunksOf_flatten]
    exact h
  exact List.nodup_flatten.mp this

theorem removeOne_sublist (chunk : List String) (l : List (List String)) :
    List.Sublist (CgBatcher.removeOne chunk l) l := by
  induction l with
  | nil => exact List.Sublist.refl _
  | cons c cs ih =>
    by_cases hc : (c == chunk) = true
    · simp only [CgBatcher.removeOne, hc, if_pos]
      exact List.sublist_cons_self c cs
    · simp only [CgBatcher.removeOne, hc]
      rw [if_neg (by simp [hc])]
      exact List.Sublist.cons₂ c ih

theorem mem_removeOne_not_mem_chunk (chunk : List String) (l : List (List String))
    (hp : l.Pairwise List.Disjoint) (hmem : chunk ∈ l) (c : List String)
    (hc : c ∈ CgBatcher.removeOne chunk l) (x : String) (hx : x ∈ c) : x ∉ chunk := by
  induction l with
  | nil => simp [CgBatcher.removeOne] at hc
  | cons d ds ih =>
    obtain ⟨hdd, hpds⟩ := List.pairwise_cons.mp hp
    by_cases hd : (d == chunk) = true
    · obtain rfl : d = chunk := by simpa using hd
      simp only [CgBatcher.removeOne, beq_self_eq_true, if_pos] at hc
      exact fun hxchunk => hdd c hc hxchunk hx
    · simp only [CgBatcher.removeOne, hd] at hc
      have hchunkds : chunk ∈ ds := by
        rcases List.mem_cons.mp hmem with rfl | hm
        · simp at hd
        · exact hm
      rcases List.mem_cons.mp hc with rfl | hc2
      · exact fun hxchunk => hdd chunk hchunkds hx hxchunk
      · exact ih hpds hchunkds hc2

theorem BInv_init : BInv CgBatcher.initState := by
  refine ⟨List.nodup_nil, List.nodup_nil, ?_, ?_, List.Pairwise.nil, ?_, ?_⟩ <;> simp [CgBatcher.initState]

theorem BInv_step (st : CgBatcher.BState) (e : CgBatcher.BEvent) (h : BInv st) :
    BInv (CgBatcher.stepEv st e) := by
  obtain ⟨hp, hq, hqp, hip, hpair, hnod, hqi⟩ := h
  cases e with
  | call now id =>
    show BInv (CgBatcher.getPriceStep now st id).1
    unfold CgBatcher.getPriceStep
    by_cases h1 : CgBatcher.isCacheValid now (CgBatcher.cacheLookup st.cache id) = true
    · rw [if_pos h1]
      exact ⟨hp, hq, hqp, hip, hpair, hnod, hqi⟩
    · rw [if_neg h1]
      by_cases h2 : st.pending.contains id = true
      · rw [if_pos h2]
        exact ⟨hp, hq, hqp, hip, hpair, hnod, hqi⟩
      · rw [if_neg h2]
        have hidp : id ∉ st.pending := by
          intro hin
          exact h2 (List.elem_iff.mpr hin)
        have hidq : id ∉ st.queue := fun hin => hidp (hqp id hin)
        have hqc : st.queue.contains id = false := by
          cases hqc2 : st.queue.contains id with
          | false => rfl
          | true => exact absurd (List.elem_iff.mp hqc2) hidq
        refine ⟨?_, ?_, ?_, ?_, hpair, hnod, ?_⟩
        · rw [List.nodup_append_comm]
          exact List.nodup_cons.mpr ⟨hidp, hp⟩
        · simp only [hqc, Bool.false_eq_true, if_false]
          rw [List.nodup_append_comm]
          exact List.nodup_cons.mpr ⟨hidq, hq⟩
        · intro x hx
          simp only [hqc, Bool.false_eq_true, if_false] at hx
          rcases List.mem_append.mp hx with hx1 | hx2
          · exact List.mem_append_left _ (hqp x hx1)
          · simp only [List.mem_singleton] at hx2
            subst hx2
            exact List.mem_append_right _ (List.mem_singleton_self x)
        · intro c hc x hx
          exact List.mem_append_left _ (hip c hc x hx)
        · intro x hx c hc
          simp only [hqc, Bool.false_eq_true, if_false] at hx
          rcases List.mem_append.mp hx with hx1 | hx2
          · exact hqi x hx1 c hc
          · simp only [List.mem_singleton] at hx2
            subst hx2
            exact fun hxc => hidp (hip c hc x hxc)
  | fire =>
    show BInv (CgBatcher.processBatchStep st)
    unfold CgBatcher.processBatchStep
    by_cases hqe : st.queue.isEmpty = true
    · rw [if_pos hqe]
      exact ⟨hp, hq, hqp, hip, hpair, hnod, hqi⟩
    · rw [if_neg hqe]
      have hcmem : ∀ c ∈ CgBatcher.chunksOf CgBatcher.MAX_BATCH_SIZE st.queue,
          ∀ x ∈ c, x ∈ st.queue :=
        fun c hc x hx => mem_of_mem_chunksOf _ _ c hc x hx
      obtain ⟨hcnod, hcpair⟩ :=
        chunksOf_nodup_parts CgBatcher.MAX_BATCH_SIZE st.queue hq
      refine ⟨hp, List.nodup_nil, by simp, ?_, ?_, ?_, by simp⟩
      · intro c hc x hx
        rcases List.mem_append.mp hc with hc1 | hc2
        · exact hip c hc1 x hx
        · exact hqp x (hcmem c hc2 x hx)
      · rw [List.pairwise_append]
        refine ⟨hpair, hcpair, ?_⟩
        intro c hc d hd
        intro a hac had
        exact hqi a (hcmem d hd a had) c hc hac
      · intro c hc
        rcases List.mem_append.mp hc with hc1 | hc2
        · exact hnod c hc1
        · exact hcnod c hc2
  | complete now found chunk =>
    show BInv (CgBatcher.completeStep now found chunk st)
    unfold CgBatcher.completeStep
    by_cases hin : st.inflight.contains chunk = true
    · rw [if_pos hin]
      have hcm : chunk ∈ st.inflight := List.elem_iff.mp hin
      have hsub : List.Sublist (CgBatcher.removeOne chunk st.inflight) st.inflight :=
        removeOne_sublist chunk st.inflight
      refine ⟨hp.filter _, hq, ?_, ?_, List.Pairwise.sublist hsub hpair, ?_, ?_⟩
      · intro x hx
        refine List.mem_filter.mpr ⟨hqp x hx, ?_⟩
        have : x ∉ chunk := hqi x hx chunk hcm
        simpa using this
      · intro c hc x hx
        refine List.mem_filter.mpr ⟨hip c (hsub.mem hc) x hx, ?_⟩
        have : x ∉ chunk := mem_removeOne_not_mem_chunk chunk st.inflight hpair hcm c hc x hx
        simpa using this
      · intro c hc
        exact hnod c (hsub.mem hc)
      · intro x hx c hc
        exact hqi x hx c (hsub.mem hc)
    · rw [if_neg hin]
      exact ⟨hp, hq, hqp, hip, hpair, hnod, hqi⟩

theorem BInv_run (es : List CgBatcher.BEvent) :
    BInv (CgBatcher.runEv CgBatcher.initState es) := by
  induction es using List.reverseRecOn with
  | nil => exact BInv_init
  | append_singleton es e ih =>
    unfold CgBatcher.runEv at ih ⊢
    rw [List.foldl_append]
    exact BInv_step _ e ih

theorem countP_contains_le_one (L : List (List String))
    (hpair : L.Pairwise List.Disjoint) (x : String) :
    L.countP (fun c => c.contains x) ≤ 1 := by
  induction L with
  | nil => simp
  | cons c cs ih =>
    obtain ⟨hcd, hcs⟩ := List.pairwise_cons.mp hpair
    rw [List.countP_cons]
    by_cases hx : c.contains x = true
    · have hmx : x ∈ c := List.elem_iff.mp hx
      have h0 : cs.countP (fun d => d.contains x) = 0 := by
        rw [List.countP_eq_zero]
        intro d hd
        intro hcon
        exact hcd d hd hmx (List.elem_iff.mp hcon)
      rw [h0, if_pos hx]
    · rw [if_neg hx]
      have h1 := ih hcs
      omega

/-- The state reached after `n ≥ 1` concurrent `getPrice` calls for the same
id on a cold cache: one pending entry, one queued id, the shared timer set,
nothing yet in flight. -/
theorem runOut_calls (n t : Nat) (id : String) (hn : 1 ≤ n) :
    CgBatcher.runOut CgBatcher.initState
        (List.replicate n (CgBatcher.BEvent.call t id)) =
      ({ cache := [], pending := [id], queue := [id], timerSet := true,
         inflight := [], requestLog := [] },
       CgBatcher.CallOutcome.newRequest ::
         List.replicate (n - 1) CgBatcher.CallOutcome.joinedPending) := by
  induction n with
  | zero => omega
  | succ m ih =>
    cases Nat.eq_zero_or_pos m with
    | inl hm =>
      subst hm
      rfl
    | inr hm =>
      rw [List.replicate_succ']
      unfold CgBatcher.runOut at ih ⊢
      rw [List.foldl_append, ih hm]
      simp only [List.foldl_cons, List.foldl_nil]
      have hstep : CgBatcher.getPriceStep t
          { cache := [], pending := [id], queue := [id], timerSet := true,
            inflight := [], requestLog := [] } id =
          ({ cache := [], pending := [id], queue := [id], timerSet := true,
             inflight := [], requestLog := [] }, CgBatcher.CallOutcome.joinedPending) := by
        unfold CgBatcher.getPriceStep
        rw [if_neg (by simp [CgBatcher.isCacheValid, CgBatcher.cacheLookup]),
          if_pos (by simp [List.contains_cons])]
      rw [hstep]
      have : List.replicate (m - 1) CgBatcher.CallOutcome.joinedPending ++
          [CgBatcher.CallOutcome.joinedPending] =
          List.replicate m CgBatcher.CallOutcome.joinedPending := by
        rw [← List.replicate_succ']
        congr 1
        omega
      simp only [List.cons_append, this]
      rfl

theorem runOut_fst (es : List CgBatcher.BEvent) :
    ∀ (st : CgBatcher.BState) (acc : List CgBatcher.CallOutcome),
      (es.foldl
        (fun p e =>
          match e with
          | CgBatcher.BEvent.call now id =>
            let r := CgBatcher.getPriceStep now p.1 id
            (r.1, p.2 ++ [r.2])
          | _ => (CgBatcher.stepEv p.1 e, p.2)) (st, acc)).1 =
      es.foldl CgBatcher.stepEv st := by
  induction es with
  | nil =>
    intro st acc
    rfl
  | cons e es ih =>
    intro st acc
    cases e with
    | call now id => exact ih _ _
    | fire => exact ih _ _
    | complete now found chunk => exact ih _ _

theorem runEv_eq_runOut_fst (es : List CgBatcher.BEvent) (st : CgBatcher.BState) :
    CgBatcher.runEv st es = (CgBatcher.runOut st es).1 :=
  (runOut_fst es st []).symm

/-- C6: (a) for any `n ≥ 1` concurrent `getPrice` calls for the same id within
one batch window on a cold cache, the first call registers the request and
every later call joins the same pending future; after the shared timer fires,
exactly one upstream request containing that id has been issued.  (b) In every
reachable state, an id is contained in at most one in-flight upstream chunk
request. -/
theorem claim6_coalescing :
    (∀ (n t : Nat) (id : String), 1 ≤ n →
        (CgBatcher.runEv CgBatcher.initState
            (List.replicate n (CgBatcher.BEvent.call t id) ++
              [CgBatcher.BEvent.fire])).requestLog.countP
            (fun c => c.contains id) = 1 ∧
        (CgBatcher.runOut CgBatcher.initState
            (List.replicate n (CgBatcher.BEvent.call t id))).2 =
          CgBatcher.CallOutcome.newRequest ::
            List.replicate (n - 1) CgBatcher.CallOutcome.joinedPending) ∧
    (∀ (es : List CgBatcher.BEvent) (x : String),
        CgBatcher.inflightCount (CgBatcher.runEv CgBatcher.initState es) x ≤ 1) := by
  constructor
  · intro n t id hn
    constructor
    · unfold CgBatcher.runEv
      rw [List.foldl_append]
      have hcalls : CgBatcher.runEv CgBatcher.initState
          (List.replicate n (CgBatcher.BEvent.call t id)) =
          { cache := [], pending := [id], queue := [id], timerSet := true,
            inflight := [], requestLog := [] } := by
        rw [runEv_eq_runOut_fst, runOut_calls n t id hn]
      unfold CgBatcher.runEv at hcalls
      rw [hcalls]
      simp only [List.foldl_cons, List.foldl_nil]
      have hfire : CgBatcher.stepEv
          { cache := [], pending := [id], queue := [id], timerSet := true,
            inflight := [], requestLog := [] } CgBatcher.BEvent.fire =
          { cache := [], pending := [id], queue := [], timerSet := false,
            inflight := [[id]], requestLog := [[id]] } := rfl
      rw [hfire]
      show List.countP (fun c => c.contains id) [[id]] = 1
      simp [List.countP_cons, List.contains_cons]
    · exact congrArg Prod.snd (runOut_calls n t id hn)
  · intro es x
    have h := BInv_run es
    exact countP_contains_le_one _ h.2.2.2.2.1 x

theorem claim6_coalescing_witness :
    (CgBatcher.runEv CgBatcher.initState
        (List.replicate 3 (CgBatcher.BEvent.call 5 "bitcoin") ++
          [CgBatcher.BEvent.fire])).requestLog.countP
        (fun c => c.contains "bitcoin") = 1 ∧
    (CgBatcher.runOut CgBatcher.initState
        (List.replicate 3 (CgBatcher.BEvent.call 5 "bitcoin"))).2 =
      CgBatcher.CallOutcome.newRequest ::
        List.replicate 2 CgBatcher.CallOutcome.joinedPending ∧
    CgBatcher.inflightCount
        (CgBatcher.runEv CgBatcher.initState
          [CgBatcher.BEvent.call 5 "bitcoin", CgBatcher.BEvent.fire]) "bitcoin" ≤ 1 := by
  obtain ⟨h1, h2⟩ := claim6_coalescing
  obtain ⟨h1a, h1b⟩ := h1 3 5 "bitcoin" (by omega)
  exact ⟨h1a, h1b, h2 [CgBatcher.BEvent.call 5 "bitcoin", CgBatcher.BEvent.fire] "bitcoin"⟩

theorem claim10_shape_bans_witness :
    (SmartResolverV2.shouldBanFromLearning "arb" "arbitrum").isSome = true ∧
    (SmartResolverV2.learnFromAPI (fun _ => some []) 0 SmartResolverV2.emptyState
        "arb" none).result = none ∧
    (SmartResolverV2.findDbRow
        (SmartResolverV2.learnFromAPI (fun _ => some []) 0 SmartResolverV2.emptyState
          "arb" none).state.db "arb").map (·.isBanned) = some true := by
  have h := claim10_shape_bans "arb" (by decide) (Or.inl (by decide))
  have h2 := h.2 (fun _ => some []) 0 SmartResolverV2.emptyState none "arbitrum" false
    (by decide) (by decide)
  exact ⟨h.1 "arbitrum" (by decide), h2.1, h2.2⟩
